import Mathlib

/-!
Verification development for the RAG evaluation toolkit
(`src/evaluate_rag.py`, `src/visualize.py`, `main.py`).

The Python source is shallowly embedded: pure fragments become Lean
functions over `ℚ`/`ℕ`/`List Char`; the stateful evaluation loop becomes
explicit state passing producing a list of log events; Python `float`
values are modelled as rationals, with `nan`/`None` as explicit score
constructors; text processing (`re` patterns, `eval` on list literals)
is modelled by executable character-list functions mirroring the
patterns' matching semantics.
-/

namespace RagEval

set_option maxRecDepth 100000

/-- A per-sample metric score as produced by the scoring backend:
either a numeric value, Python `None`, or a float `nan`
(`evaluate_rag.py` treats `None` and `nan` both as invalid, line 172/214). -/
inductive Score where
  | val (q : ℚ)
  | pyNone
  | pyNaN
deriving DecidableEq, Repr

/-- `_scores_dict`: mapping from metric name to the ordered list of scores
(modelled as an association list; Python dict keys are unique and ordered). -/
abbrev ScoresDict := List (String × List Score)

/-- The valid entries of a score list: non-`None`, non-`nan`
(`[x for x in scores if x is not None and not np.isnan(x)]`,
`evaluate_rag.py` lines 172 and 214). -/
def validScores (l : List Score) : List ℚ :=
  l.filterMap fun s => match s with
    | .val q => some q
    | .pyNone => none
    | .pyNaN => none

/-! ### `create_metrics` (`evaluate_rag.py` lines 18-47) -/

/-- The fixed metric definition table (`metrics_definitions`, lines 30-36). -/
def metricsDefinitions : List (String × String) :=
  [("accuracy", "评估回答的准确性，验证回答是否与上下文内容一致，且不包含虚假信息。"),
   ("completeness", "评估回答的完整性，验证回答是否涵盖了上下文中的所有关键信息。"),
   ("relevance", "评估回答与问题的相关性，验证回答是否直接解答了用户的问题。"),
   ("coherence", "评估回答的连贯性，验证回答是否逻辑清晰且结构良好。"),
   ("conciseness", "评估回答的简洁性，验证回答是否简明扼要，不包含冗余信息。")]

/-- An `AspectCritic` metric object: its name and its definition text. -/
structure AspectCritic where
  name : String
  definition : String
deriving DecidableEq, Repr

/-- `create_metrics` (lines 38-47): for each requested name, if it is a key of
the definition table, append an `AspectCritic`; otherwise print a warning.
The second component collects the warning messages printed to the console. -/
def create_metrics : List String → List AspectCritic × List String
  | [] => ([], [])
  | name :: rest =>
    match (metricsDefinitions.lookup name) with
    | some d => (⟨name, d⟩ :: (create_metrics rest).1, (create_metrics rest).2)
    | none =>
      ((create_metrics rest).1,
       ("警告: 未知的评估指标 '" ++ name ++ "'，已忽略") :: (create_metrics rest).2)

/-! ### The batch partition (`evaluate_rag.py` line 136):
`for i in range(0, sample_count, batch_size)` with
`batch_end = min(i + batch_size, sample_count)` (line 137). -/

/-- One step list of `range(i, n, b)` batch bounds; `fuel` dominates the
iteration count (for `b ≥ 1`, at most `n` iterations occur). -/
def batchLoop (n b : ℕ) : ℕ → ℕ → List (ℕ × ℕ)
  | _, 0 => []
  | i, fuel + 1 =>
    if i < n then (i, min (i + b) n) :: batchLoop n b (i + b) fuel else []

/-- The batches `(i, batch_end)` traversed by the evaluation loop, in order.
Python's `range` with step `0` raises, so `b = 0` yields no batches here. -/
def evalBatches (n b : ℕ) : List (ℕ × ℕ) :=
  if b = 0 then [] else batchLoop n b 0 (n + 1)

/-- The number of batches the progress line reports
(`(sample_count+batch_size-1)//batch_size`, line 138). -/
def numBatches (n b : ℕ) : ℕ := (n + b - 1) / b

/-! ### The batch evaluation loop (`evaluate_rag.py` lines 129-194) and the
summary computation (lines 203-221). -/

/-- Outcome of one `evaluate(...)` call (lines 150-154): it either returns an
object carrying `_scores_dict`, returns one without it (line 157's `hasattr`
test fails), or raises an exception with a message. -/
inductive BatchResult where
  | ok (d : ScoresDict)
  | noDict
  | err (msg : String)
deriving DecidableEq

/-- The log lines the engine emits, abstracted to the data they carry. -/
inductive LogEvent where
  | progress (batchNum : ℕ)
  | batchResults (batchNum : ℕ) (d : ScoresDict)
  | batchAvg (batchNum : ℕ) (metric : String) (avg : ℚ)
  | noDictMsg
  | batchError (batchNum : ℕ) (msg : String)
  | continueMsg
  | batchTime (batchNum : ℕ)
  | summaryMean (metric : String) (avg : ℚ)
  | noValidScores (metric : String)
deriving DecidableEq

/-- `all_results[metric_name].extend(scores)` with dict insertion-order
semantics: extend the first entry with a matching key, or append a new one
(`evaluate_rag.py` lines 159-162). -/
def extendKey : ScoresDict → String → List Score → ScoresDict
  | [], m, ss => [(m, ss)]
  | (k, v) :: rest, m, ss =>
    if k = m then (k, v ++ ss) :: rest else (k, v) :: extendKey rest m ss

/-- Merge one batch's `scores_dict` into the running `all_results`. -/
def mergeScores (acc : ScoresDict) (d : ScoresDict) : ScoresDict :=
  d.foldl (fun a p => extendKey a p.1 p.2) acc

/-- Dict access with `[]` default (absent keys hold no scores). -/
def lookupD (acc : ScoresDict) (m : String) : List Score :=
  (acc.lookup m).getD []

/-- The per-batch console average lines (lines 170-175): one per metric whose
score list is nonempty and has at least one valid score. -/
def batchAvgEvents (k : ℕ) (d : ScoresDict) : List LogEvent :=
  d.filterMap fun p =>
    if p.2 ≠ [] ∧ validScores p.2 ≠ [] then
      some (.batchAvg k p.1 ((validScores p.2).sum / (validScores p.2).length))
    else none

/-- One iteration of the batch loop (lines 136-193): the batch number is
`i // batch_size + 1`; an exception is logged with that number and the loop
continues (`continue`, line 185) without touching `all_results`. -/
def processBatch (scorer : ℕ → BatchResult) (b : ℕ)
    (st : ScoresDict × List LogEvent) (bounds : ℕ × ℕ) :
    ScoresDict × List LogEvent :=
  let k := bounds.1 / b + 1
  match scorer bounds.1 with
  | .err m => (st.1, st.2 ++ [.progress k, .batchError k m, .continueMsg])
  | .noDict => (st.1, st.2 ++ [.progress k, .noDictMsg, .batchTime k])
  | .ok d =>
    (mergeScores st.1 d,
     st.2 ++ [.progress k, .batchResults k d] ++ batchAvgEvents k d
        ++ [.batchTime k])

/-- The whole batch loop: fold `processBatch` over the batch partition,
starting from the empty `all_results` dict. -/
def runBatches (scorer : ℕ → BatchResult) (n b : ℕ) :
    ScoresDict × List LogEvent :=
  (evalBatches n b).foldl (processBatch scorer b) ([], [])

/-- The summary computation (lines 204-221): per metric, the mean over valid
scores when any exist (entering `summary_results` and logged), otherwise the
"无有效分数" (no valid scores) line and no summary entry.  When `all_results`
is empty the loop body never runs, so the guard `if all_results:` (line 205)
needs no separate modelling: the result is empty either way. -/
def summaryStep (acc : List (String × ℚ) × List LogEvent)
    (p : String × List Score) : List (String × ℚ) × List LogEvent :=
  let v := validScores p.2
  if v = [] then (acc.1, acc.2 ++ [.noValidScores p.1])
  else
    (acc.1 ++ [(p.1, v.sum / v.length)],
     acc.2 ++ [.summaryMean p.1 (v.sum / v.length)])

def finalizeSummary (allResults : ScoresDict) :
    List (String × ℚ) × List LogEvent :=
  allResults.foldl summaryStep ([], [])

/-- The complete post-setup run: batches, then summary.  Returns the summary
(the function's return value, line 261), the final `all_results`, and the
log events in order. -/
def evaluate_dataset_run (scorer : ℕ → BatchResult) (n b : ℕ) :
    List (String × ℚ) × ScoresDict × List LogEvent :=
  let (res, ev) := runBatches scorer n b
  let (sm, ev2) := finalizeSummary res
  (sm, res, ev ++ ev2)

def summaryEntry (p : String × List Score) : Option (String × ℚ) :=
  let v := validScores p.2
  if v = [] then none else some (p.1, v.sum / v.length)

def summaryEvent (p : String × List Score) : LogEvent :=
  let v := validScores p.2
  if v = [] then .noValidScores p.1 else .summaryMean p.1 (v.sum / v.length)

/-- The scores a single batch contributes to `all_results[m]`. -/
def batchContrib (scorer : ℕ → BatchResult) (m : String) (p : ℕ × ℕ) :
    List Score :=
  match scorer p.1 with
  | .ok d => lookupD d m
  | _ => []

/-- A concrete scorer for exercising the one-failing-batch theorem:
batch starting at index 2 raises, every other batch returns two accuracy
scores. -/
def c1Scorer : ℕ → BatchResult := fun i =>
  if i = 2 then .err "boom" else .ok [("accuracy", [.val 1, .val 0])]

/-! ### `main.py` control flow (lines 191-293).  `main()` returns (plain
`return`) on every abort path — directory failure, API-test failure,
`--test-only`, dataset preparation failure, nonexistent dataset path — and the
`__main__` wrapper catches every exception, so the process always ends with
status `0`; `sys.exit` is never called with a nonzero code anywhere. -/

/-- The ambient facts `main()` branches on: whether the directories could be
created, the CLI flags, the API test outcome, the dataset path argument
(`none` models the empty string), the result of automatic dataset
preparation, filesystem existence, and the summary `evaluate_dataset` would
return (it catches its own exceptions, `evaluate_rag.py` lines 263-267). -/
structure MainEnv where
  dirsOk : Bool
  skipApiTest : Bool
  apiOk : Bool
  testOnly : Bool
  datasetArg : Option String
  preparedDataset : Option String
  datasetExists : String → Bool
  evalSummary : List (String × ℚ)

/-- What a `main.py` run produces: the process exit status, whether the
evaluation was reached, and the summary if one was computed. -/
structure MainResult where
  exitCode : ℕ
  ranEvaluation : Bool
  summary : Option (List (String × ℚ))

/-- The dataset path `main` settles on (lines 224-230): the `--dataset`
argument when nonempty, otherwise the prepared dataset (or `none` when
preparation failed). -/
def mainDatasetPath (env : MainEnv) : Option String :=
  match env.datasetArg with
  | some p => some p
  | none => env.preparedDataset

/-- `main()` (lines 191-284) plus the `__main__` wrapper (lines 285-293):
every branch returns normally, so the exit status is `0` on every path. -/
def mainRun (env : MainEnv) : MainResult :=
  if !env.dirsOk then ⟨0, false, none⟩
  else if !env.skipApiTest && !env.apiOk then ⟨0, false, none⟩
  else if env.testOnly then ⟨0, false, none⟩
  else
    match mainDatasetPath env with
    | none => ⟨0, false, none⟩
    | some path =>
      if !env.datasetExists path then ⟨0, false, none⟩
      else ⟨0, true, some env.evalSummary⟩

/-- A setup-fatal scenario: directories fine, API test skipped, an explicit
dataset path that exists nowhere on disk. -/
def c6Env : MainEnv where
  dirsOk := true
  skipApiTest := true
  apiOk := false
  testOnly := false
  datasetArg := some "data/missing"
  preparedDataset := none
  datasetExists := fun _ => false
  evalSummary := []

/-! ### `visualize.py`: values, text utilities, and `safe_eval` (lines
141-163).  Text is modelled as `List Char`; Python regular expressions are
modelled by executable scanning functions that mirror the patterns' matching
semantics (lazy `.*?`, optional groups tried in order, `re.DOTALL` presence
or absence). -/

/-- A cell value of an extracted record: a float, `np.nan`, `None`, a bool,
or a string. -/
inductive Value where
  | vnum (q : ℚ)
  | vnan
  | vnone
  | vbool (b : Bool)
  | vstr (s : List Char)
deriving DecidableEq, Repr

/-- How a written score reads back as a record value. -/
def scoreValue : Score → Value
  | .val q => .vnum q
  | .pyNone => .vnone
  | .pyNaN => .vnan

/-- `pat` is a prefix of `s`. -/
def beginsWith : List Char → List Char → Bool
  | [], _ => true
  | _ :: _, [] => false
  | p :: ps, c :: cs => p = c && beginsWith ps cs

/-- Index of the first occurrence of `pat` in `s` (Python `str.find`-style). -/
def findSubstr (pat : List Char) : List Char → Option ℕ
  | [] => if pat = [] then some 0 else none
  | c :: s =>
    if beginsWith pat (c :: s) then some 0 else (findSubstr pat s).map (· + 1)

/-- Whether `pat` occurs anywhere in `s`. -/
def hasSubstr (pat s : List Char) : Bool := (findSubstr pat s).isSome

/-- `str.replace(pat, rep)` scanning left to right, non-overlapping.  The
fuel bounds the number of scan steps; every step consumes at least one
character, so `s.length` fuel always suffices. -/
def replaceAllGo (pat rep : List Char) : ℕ → List Char → List Char
  | 0, s => s
  | _ + 1, [] => []
  | fuel + 1, c :: s =>
    if beginsWith pat (c :: s) then
      rep ++ replaceAllGo pat rep fuel (List.drop (pat.length - 1) s)
    else c :: replaceAllGo pat rep fuel s

/-- `str.replace(pat, rep)`; the empty pattern never occurs at the call
sites, so it is mapped to the identity to keep the function total. -/
def replaceAll (pat rep s : List Char) : List Char :=
  if pat = [] then s else replaceAllGo pat rep s.length s

def digitChar (d : ℕ) : Char := Char.ofNat (48 + d)

def digitVal (c : Char) : ℕ := c.toNat - 48

def digitsVal (ds : List Char) : ℕ :=
  ds.foldl (fun a c => a * 10 + digitVal c) 0

/-- Digits accumulator; the fuel bounds the digit count (`n + 1` always
suffices since `n < 10 ^ (n + 1)`). -/
def natDigitsGo : ℕ → ℕ → List Char → List Char
  | 0, _, acc => acc
  | fuel + 1, n, acc =>
    if n < 10 then digitChar n :: acc
    else natDigitsGo fuel (n / 10) (digitChar (n % 10) :: acc)

/-- Decimal digits of `n`, most significant first (Python `str(n)`). -/
def natToDigits (n : ℕ) : List Char := natDigitsGo (n + 1) n []

/-- Consume a leading digit run, accumulating its value. -/
def parseDigitsGo : List Char → ℕ → ℕ × List Char
  | [], acc => (acc, [])
  | c :: s, acc =>
    if c.isDigit then parseDigitsGo s (acc * 10 + digitVal c) else (acc, c :: s)

/-- The characters a Python numeric literal token may contain. -/
def isNumChar (c : Char) : Bool :=
  c.isDigit || c = '.' || c = '-' || c = '+' || c = 'e' || c = 'E'

/-- Build the rational `±(m * 10^e or m / 10^(-e))`, using only `ℕ`/`ℤ`
arithmetic and the normalizing `mkRat` constructor (the `Rat` field
operations are irreducible and would block evaluation). -/
def decValue (neg : Bool) (m : ℕ) (scale : ℕ) : ℚ :=
  mkRat (if neg then -(m : ℤ) else (m : ℤ)) (10 ^ scale)

/-- Parse a complete numeric token (as `eval` would evaluate a float or int
literal): optional sign, digits, optional fraction, optional exponent. -/
def parseNumTok (s : List Char) : Option ℚ :=
  let signSplit : Bool × List Char :=
    match s with
    | '-' :: t => (true, t)
    | '+' :: t => (false, t)
    | _ => (false, s)
  let neg := signSplit.1
  let s1 := signSplit.2
  let intDigits := s1.takeWhile Char.isDigit
  let s2 := s1.drop intDigits.length
  let fracSplit : List Char × List Char :=
    match s2 with
    | '.' :: t => (t.takeWhile Char.isDigit, t.drop (t.takeWhile Char.isDigit).length)
    | _ => ([], s2)
  let fracDigits := fracSplit.1
  let s3 := fracSplit.2
  if intDigits = [] ∧ fracDigits = [] then none
  else
    let m := digitsVal (intDigits ++ fracDigits)
    let scale := fracDigits.length
    match s3 with
    | [] => some (decValue neg m scale)
    | e :: t =>
      if e = 'e' ∨ e = 'E' then
        let esignSplit : Bool × List Char :=
          match t with
          | '-' :: u => (true, u)
          | '+' :: u => (false, u)
          | _ => (false, t)
        let expDigits := esignSplit.2.takeWhile Char.isDigit
        let t2 := esignSplit.2.drop expDigits.length
        if expDigits = [] ∨ t2 ≠ [] then none
        else
          let ev := digitsVal expDigits
          if esignSplit.1 then some (decValue neg m (scale + ev))
          else some (decValue neg (m * 10 ^ ev) scale)
      else none

/-- Fractional decimal digits by long division of `r / den`, up to `fuel`
digits (float `repr` always terminates; a value needing more digits than the
fuel renders truncated and is excluded by the round-trip hypotheses where it
matters). -/
def fracDigitsGo (den : ℕ) : ℕ → ℕ → List Char
  | _, 0 => []
  | r, fuel + 1 =>
    if r = 0 then []
    else digitChar (r * 10 / den) :: fracDigitsGo den (r * 10 % den) fuel

/-- Python `repr` of a float value, modelled on its rational value: sign,
integer part, `.`, fractional digits (at least one, as `repr` always prints
`1.0`-style). -/
def renderRat (q : ℚ) : List Char :=
  let na := q.num.natAbs
  let ip := na / q.den
  let frDigits := fracDigitsGo q.den (na % q.den) 17
  (if q.num < 0 then ['-'] else [])
    ++ natToDigits ip ++ '.' :: (if frDigits = [] then ['0'] else frDigits)

/-- Python `repr` of one score inside a printed list: `nan` for NaN, `None`
for None, decimal text for a float. -/
def renderScore : Score → List Char
  | .val q => renderRat q
  | .pyNone => "None".toList
  | .pyNaN => "nan".toList

/-- The element text of Python `repr` on a list: `", "`-separated. -/
def renderInner : List Score → List Char
  | [] => []
  | [s] => renderScore s
  | s :: rest => renderScore s ++ ',' :: ' ' :: renderInner rest

/-- Python `repr` of a score list, as `print` writes it into the log. -/
def renderList (ss : List Score) : List Char := '[' :: renderInner ss ++ [']']

/-- The rewrite `s.replace('nan', 'np.nan')` (`visualize.py` line 154). -/
def nanRewrite (s : List Char) : List Char :=
  replaceAll "nan".toList "np.nan".toList s

def squote : Char := Char.ofNat 39

def dquote : Char := Char.ofNat 34

/-- Scan a quoted string body up to the closing quote (no escape support:
the log fragments at the call sites carry none; a backslash fails the
parse). -/
def scanStrGo (q : Char) : List Char → Option (List Char × List Char)
  | [] => none
  | c :: t =>
    if c = q then some ([], t)
    else if c = '\\' then none
    else (scanStrGo q t).map (fun p => (c :: p.1, p.2))

def skipSpaces (s : List Char) : List Char := s.dropWhile (· = ' ')

/-- One literal atom as `eval` would produce it inside a list literal:
`np.nan` (the rewritten missing token), `None`, booleans, quoted strings,
or a numeric literal (maximal munch of number characters, then conversion —
a malformed token such as `1.2.3` fails, as `eval` would). -/
def parseAtomV (s : List Char) : Option (Value × List Char) :=
  if beginsWith "np.nan".toList s then some (.vnan, s.drop 6)
  else if beginsWith "None".toList s then some (.vnone, s.drop 4)
  else if beginsWith "True".toList s then some (.vbool true, s.drop 4)
  else if beginsWith "False".toList s then some (.vbool false, s.drop 5)
  else if beginsWith [squote] s then
    (scanStrGo squote (s.drop 1)).map (fun p => (.vstr p.1, p.2))
  else if beginsWith [dquote] s then
    (scanStrGo dquote (s.drop 1)).map (fun p => (.vstr p.1, p.2))
  else
    let tok := s.takeWhile isNumChar
    if tok = [] then none
    else (parseNumTok tok).map (fun q => (.vnum q, s.drop tok.length))

/-- Comma-separated atoms up to the closing `]`; the fuel bounds the item
count (one character of input per item is consumed at least). -/
def parseListItems : ℕ → List Char → Option (List Value × List Char)
  | 0, _ => none
  | fuel + 1, s =>
    match parseAtomV (skipSpaces s) with
    | none => none
    | some (v, r) =>
      match skipSpaces r with
      | ']' :: r2 => some ([v], r2)
      | ',' :: r2 =>
        (parseListItems fuel r2).map (fun p => (v :: p.1, p.2))
      | _ => none

/-- `eval` on a full list-literal string (the only shape the extractor feeds
it: every call site passes a `[...]` capture), as a total parser: a Python
list display of literal atoms, requiring the whole string to be consumed. -/
def pyEvalList (s : List Char) : Option (List Value) :=
  match skipSpaces s with
  | '[' :: t =>
    match skipSpaces t with
    | ']' :: r => if skipSpaces r = [] then some [] else none
    | _ =>
      match parseListItems (t.length + 1) t with
      | some (vs, r) => if skipSpaces r = [] then some vs else none
      | none => none
  | _ => none

/-- A JSON atom (`json.loads` after the quote substitution,
`visualize.py` line 160). -/
def jsonAtom (s : List Char) : Option (Value × List Char) :=
  if beginsWith "null".toList s then some (.vnone, s.drop 4)
  else if beginsWith "true".toList s then some (.vbool true, s.drop 4)
  else if beginsWith "false".toList s then some (.vbool false, s.drop 5)
  else if beginsWith [dquote] s then
    (scanStrGo dquote (s.drop 1)).map (fun p => (.vstr p.1, p.2))
  else
    let tok := s.takeWhile isNumChar
    if tok = [] then none
    else (parseNumTok tok).map (fun q => (.vnum q, s.drop tok.length))

def jsonItems : ℕ → List Char → Option (List Value × List Char)
  | 0, _ => none
  | fuel + 1, s =>
    match jsonAtom (skipSpaces s) with
    | none => none
    | some (v, r) =>
      match skipSpaces r with
      | ']' :: r2 => some ([v], r2)
      | ',' :: r2 => (jsonItems fuel r2).map (fun p => (v :: p.1, p.2))
      | _ => none

/-- `json.loads` on the call sites' array-shaped input, as a total parser. -/
def jsonLoads (s : List Char) : Option (List Value) :=
  match skipSpaces s with
  | '[' :: t =>
    match skipSpaces t with
    | ']' :: r => if skipSpaces r = [] then some [] else none
    | _ =>
      match jsonItems (t.length + 1) t with
      | some (vs, r) => if skipSpaces r = [] then some vs else none
      | none => none
  | _ => none

/-- `safe_eval` (`visualize.py` lines 141-163) on a string argument: empty
input yields `[]`; otherwise rewrite `nan` to `np.nan`, try `eval` (modelled
as the list-literal parser), then `json.loads` on the single-to-double-quote
substitution, and yield `[]` when both fail — never an exception. -/
def safeEvalStr (s : List Char) : List Value :=
  if s = [] then []
  else
    let t := nanRewrite s
    match pyEvalList t with
    | some l => l
    | none =>
      match jsonLoads (replaceAll [squote] [dquote] t) with
      | some l => l
      | none => []

/-- `safe_eval` as called with an optional regex group (`None` is falsy, so
`safe_eval(None)` returns `[]` through the `if not s` guard). -/
def safe_eval : Option (List Char) → List Value
  | none => []
  | some s => safeEvalStr s

/-- `truncate_text` (`visualize.py` lines 165-180): non-strings pass through;
strings longer than `maxLength` are cut to their first `maxLength` characters
plus `"..."`. -/
def truncate_text (text : Value) (maxLength : ℕ) : Value :=
  match text with
  | .vstr s =>
    if s.length > maxLength then .vstr (s.take maxLength ++ "...".toList)
    else .vstr s
  | v => v

/-! ### The extraction patterns of `parse_evaluation_file` (`visualize.py`
lines 9-139), modelled operationally.

The expanded pattern (line 26) is the batch marker `批次 (\d+) 评估结果:\n`
followed by twelve optional groups `(?:.*?FIELD: (\[.*?\]).*?)?` under
`re.DOTALL`.  Because every group is optional, the pattern matches exactly
where the marker matches; each group, tried in order, lazily skips to the
first occurrence of `FIELD: [` in the remaining text (crossing line and
batch boundaries, since `.` matches newlines) and captures from that `[` to
the first `]` after it; a group whose token never occurs (or is never
followed by `]`) matches empty and leaves the position unchanged.
`finditer` resumes scanning after each match's end. -/

/-- One extracted record: the `batch`/`index` keys plus the field mapping the
source stores in the same dict. -/
structure EvalRecord where
  batch : ℕ
  index : ℕ
  fields : List (String × Value)
deriving DecidableEq, Repr

/-- Insertion-ordered dict assignment `d[key] = v`. -/
def setAssoc {β : Type} : List (String × β) → String → β → List (String × β)
  | [], key, v => [(key, v)]
  | (k, w) :: rest, key, v =>
    if k = key then (k, v) :: rest else (k, w) :: setAssoc rest key v

/-- `max(len(values) for values in fields.values())`, `0` when empty. -/
def maxFieldLen (fields : List (String × List Value)) : ℕ :=
  (fields.map (fun p => p.2.length)).foldr max 0

def getOrNan (vs : List Value) (i : ℕ) : Value := (vs.get? i).getD .vnan

/-- Record building (`visualize.py` lines 106-123, and identically lines
63-71 with batch 1): one record per index up to the longest field list, any
shorter field padded with `np.nan`. -/
def buildRecords (batchNum : ℕ) (fields : List (String × List Value)) :
    List EvalRecord :=
  (List.range (maxFieldLen fields)).map fun i =>
    ⟨batchNum, i, fields.map (fun p => (p.1, getOrNan p.2 i))⟩

/-- Try the batch marker `批次 (\d+) 评估结果:\n` at the head of `s`;
greedy digits (equivalently maximal munch, since a space must follow). -/
def markerAt (s : List Char) : Option (ℕ × List Char) :=
  if beginsWith "批次 ".toList s then
    let t := s.drop 3
    let ds := t.takeWhile Char.isDigit
    if ds = [] then none
    else
      let t2 := t.drop ds.length
      if beginsWith " 评估结果:\n".toList t2 then
        some (digitsVal ds, t2.drop 7)
      else none
  else none

/-- First marker occurrence: batch number and the text after the marker. -/
def findMarker : List Char → Option (ℕ × List Char)
  | [] => none
  | c :: s =>
    match markerAt (c :: s) with
    | some r => some r
    | none => findMarker s

/-- One optional group `(?:.*?tok(\[.*?\]).*?)?` under DOTALL: find the first
occurrence of `tok ++ "["`, then capture to the first `]` after it.  When no
`]` follows the first occurrence, none follows any later one either, so the
group fails outright. -/
def spanToClose : List Char → Option (List Char × List Char)
  | [] => none
  | c :: s =>
    if c = ']' then some ([], s)
    else (spanToClose s).map (fun p => (c :: p.1, p.2))

def captureField (tok : List Char) : List Char → Option (List Char × List Char)
  | [] => none
  | c :: s =>
    if beginsWith (tok ++ ['[']) (c :: s) then
      match spanToClose ((c :: s).drop (tok.length + 1)) with
      | some (inner, rest) => some ('[' :: inner ++ [']'], rest)
      | none => none
    else captureField tok s

/-- The twelve optional field groups of the expanded pattern, in the
pattern's order (`field_mapping`, lines 78-91). -/
def expandedFieldNames : List String :=
  ["user_input", "retrieved_contexts", "response", "reference",
   "context_precision", "answer_relevancy", "faithfulness",
   "context_recall", "context_entities_recall",
   "accuracy", "completeness", "relevance"]

/-- Run the optional field groups in order from the current position,
returning the captures and the final position (the match end). -/
def matchFieldsGo : List String → List Char →
    List (Option (List Char)) × List Char
  | [], s => ([], s)
  | nm :: toks, s =>
    match captureField (nm.toList ++ ": ".toList) s with
    | some (cap, rest) =>
      let r := matchFieldsGo toks rest
      (some cap :: r.1, r.2)
    | none =>
      let r := matchFieldsGo toks s
      (none :: r.1, r.2)

/-- `re.finditer` with the expanded pattern: scan for the marker, run the
field groups, resume after the match end.  The fuel bounds the match count
(each match consumes the marker, at least 11 characters). -/
def finditerExpandedGo : ℕ → List Char → List (ℕ × List (Option (List Char)))
  | 0, _ => []
  | fuel + 1, s =>
    match findMarker s with
    | none => []
    | some (num, rest) =>
      let r := matchFieldsGo expandedFieldNames rest
      (num, r.1) :: finditerExpandedGo fuel r.2

def finditerExpanded (s : List Char) : List (ℕ × List (Option (List Char))) :=
  finditerExpandedGo (s.length + 1) s

/-- Lazy `(\[.*?\])` without `re.DOTALL` (`.` excludes newlines): capture
from `[` to the first `]`, failing on an intervening newline. -/
def spanToCloseLine : List Char → Option (List Char × List Char)
  | [] => none
  | c :: s =>
    if c = ']' then some ([], s)
    else if c = '\n' then none
    else (spanToCloseLine s).map (fun p => (c :: p.1, p.2))

def lineCapture (s : List Char) : Option (List Char × List Char) :=
  match s with
  | '[' :: t => (spanToCloseLine t).map (fun p => ('[' :: p.1 ++ [']'], p.2))
  | _ => none

/-- The basic 3-metric pattern (line 34) tried at one position: the marker
immediately followed by the three fixed metric lines (no DOTALL, so the
lines must be adjacent). -/
def basicMatchAt (s : List Char) :
    Option ((ℕ × List Char × List Char × List Char) × List Char) :=
  match markerAt s with
  | none => none
  | some (num, r0) =>
    if beginsWith "accuracy: ".toList r0 then
      match lineCapture (r0.drop 10) with
      | none => none
      | some (c1, r1) =>
        if beginsWith "\ncompleteness: ".toList r1 then
          match lineCapture (r1.drop 15) with
          | none => none
          | some (c2, r2) =>
            if beginsWith "\nrelevance: ".toList r2 then
              match lineCapture (r2.drop 12) with
              | none => none
              | some (c3, r3) => some ((num, c1, c2, c3), r3)
            else none
        else none
    else none

def finditerBasicGo : ℕ → List Char →
    List (ℕ × List Char × List Char × List Char)
  | 0, _ => []
  | _ + 1, [] => []
  | fuel + 1, c :: t =>
    match basicMatchAt (c :: t) with
    | some (m, rest) => m :: finditerBasicGo fuel rest
    | none => finditerBasicGo fuel t

def finditerBasic (s : List Char) :
    List (ℕ × List Char × List Char × List Char) :=
  finditerBasicGo s.length s

/-- `re.search` for `name: (\[.*?\])` without DOTALL: the first position
where the token occurs and a `]` closes the capture on the same line. -/
def searchMetricCapture (name : List Char) : List Char → Option (List Char)
  | [] => none
  | c :: s =>
    if beginsWith (name ++ ": [".toList) (c :: s) then
      match spanToCloseLine ((c :: s).drop (name.length + 3)) with
      | some (inner, _) => some ('[' :: inner ++ [']'])
      | none => searchMetricCapture name s
    else searchMetricCapture name s

/-- The per-metric scan tier's metric table (lines 41-50), in order. -/
def tier3Metrics : List String :=
  ["accuracy", "completeness", "relevance", "context_precision",
   "answer_relevancy", "faithfulness", "context_recall",
   "context_entities_recall"]

/-- The `results` dict of the per-metric tier (lines 52-59): one entry per
metric whose list literal is found, holding `safe_eval` of the capture
(possibly `[]` — the key is still set). -/
def tier3Results (content : List Char) : List (String × List Value) :=
  tier3Metrics.filterMap fun nm =>
    match searchMetricCapture nm.toList content with
    | some cap => some (nm, safeEvalStr cap)
    | none => none

/-- The per-metric tier's records (lines 61-71): batch 1, built like
`buildRecords`; nothing when no metric matched (`if results:`). -/
def tier3Records (content : List Char) : List EvalRecord :=
  let results := tier3Results content
  if results = [] then [] else buildRecords 1 results

/-- The final fallback's alternation
`(accuracy|completeness|...|context_entities_recall): ([\d\.]+)` tried at one
position, alternatives in pattern order; an alternative whose `: number` part
fails lets the next one try (regex backtracking). -/
def tryAlts : List String → List Char → Option ((String × List Char) × List Char)
  | [], _ => none
  | nm :: rest, s =>
    let tok := nm.toList ++ ": ".toList
    if beginsWith tok s then
      let after := s.drop tok.length
      let numTok := after.takeWhile (fun c => c.isDigit || c = '.')
      if numTok = [] then tryAlts rest s
      else some ((nm, numTok), after.drop numTok.length)
    else tryAlts rest s

def bareMatchesGo : ℕ → List Char → List (String × List Char)
  | 0, _ => []
  | _ + 1, [] => []
  | fuel + 1, c :: s =>
    match tryAlts tier3Metrics (c :: s) with
    | some (m, rest) => m :: bareMatchesGo fuel rest
    | none => bareMatchesGo fuel s

/-- `re.findall` of the bare `metric: number` pattern (line 128): scan left
to right, non-overlapping. -/
def bareMatches (s : List Char) : List (String × List Char) :=
  bareMatchesGo s.length s

/-- Python `float()` on a `[\d\.]+` token: digits with at most one period
and at least one digit; anything else raises, which line 136 turns into
`np.nan`. -/
def parseFloat (s : List Char) : Option ℚ :=
  let intDigits := s.takeWhile Char.isDigit
  let s2 := s.drop intDigits.length
  match s2 with
  | [] => if intDigits = [] then none else some (decValue false (digitsVal intDigits) 0)
  | '.' :: t =>
    let fracDigits := t.takeWhile Char.isDigit
    if t.drop fracDigits.length ≠ [] then none
    else if intDigits = [] ∧ fracDigits = [] then none
    else some (decValue false (digitsVal (intDigits ++ fracDigits)) fracDigits.length)
  | _ => none

/-- The one synthetic record the fallback tier builds (lines 130-137):
batch 1, index 0, later occurrences of a metric overwriting earlier ones. -/
def buildFallbackRecord (ms : List (String × List Char)) : EvalRecord :=
  ⟨1, 0,
   ms.foldl
     (fun fs p =>
       setAssoc fs p.1
         (match parseFloat p.2 with
          | some q => .vnum q
          | none => .vnan))
     []⟩

/-- The `fields` dict of the expanded tier (lines 94-98): every mapped field
gets a key; a matched group is `safe_eval`ed, an unmatched one yields `[]`. -/
def expandedFields (groups : List (Option (List Char))) :
    List (String × List Value) :=
  (expandedFieldNames.zip groups).map fun p =>
    (p.1, match p.2 with | some cap => safeEvalStr cap | none => [])

def fieldValues (fields : List (String × List Value)) (k : String) :
    List Value :=
  (fields.lookup k).getD []

/-- The legacy remap (lines 100-104): when the `accuracy` entry is falsy the
source reinterprets groups 2-4 (`user_input`, `retrieved_contexts`,
`response`) as the three basic metrics; `safe_eval(None)` yields `[]`. -/
def remapFields (groups : List (Option (List Char)))
    (fields : List (String × List Value)) : List (String × List Value) :=
  if fieldValues fields "accuracy" = [] then
    setAssoc
      (setAssoc
        (setAssoc fields "accuracy" (safe_eval ((groups.get? 0).getD none)))
        "completeness" (safe_eval ((groups.get? 1).getD none)))
      "relevance" (safe_eval ((groups.get? 2).getD none))
  else fields

/-- The expanded tier's records (lines 73-123). -/
def expandedRecords (ms : List (ℕ × List (Option (List Char)))) :
    List EvalRecord :=
  ms.flatMap fun m => buildRecords m.1 (remapFields m.2 (expandedFields m.2))

/-- `parse_evaluation_file` (`visualize.py` lines 9-139) on the file's text.
Tier order as in the source: the expanded pattern; when it matches nothing,
the basic pattern (whose matches, if any, are never processed — the `else`
on line 72 belongs to the outer `if`, so a basic-only match leaves
`batch_results` empty); when that too matches nothing, the per-metric scan;
and when no records were built at all, the bare `metric: number` fallback. -/
def parse_evaluation_file (content : List Char) : List EvalRecord :=
  let exp := finditerExpanded content
  let batchResults :=
    if exp = [] then
      if finditerBasic content = [] then tier3Records content
      else []
    else expandedRecords exp
  if batchResults = [] then
    let ms := bareMatches content
    if ms = [] then [] else [buildFallbackRecord ms]
  else batchResults

/-! ### The Report Writer's text log format (`evaluate_rag.py` lines
165-167): each successful batch writes `\n批次 {k} 评估结果:` and one
`{metric}: {scores}` line per metric, each `print` call appending `\n`.
Around the blocks the writer emits further lines (progress, per-batch
averages, timing, the final summary section); those are modelled as
interleaved filler text, constrained only where extraction semantics
requires it. -/

/-- One batch block of the text log. -/
def blockText (k : ℕ) (d : ScoresDict) : List Char :=
  '\n' :: "批次 ".toList ++ natToDigits k ++ " 评估结果:\n".toList
    ++ d.flatMap (fun p => p.1.toList ++ ": ".toList ++ renderList p.2 ++ ['\n'])

/-- Blocks interleaved with the writer's other lines. -/
def mkLogGo : List (ℕ × ScoresDict) → List (List Char) → List Char
  | [], _ => []
  | b :: bs, [] => blockText b.1 b.2 ++ mkLogGo bs []
  | b :: bs, f :: fs => blockText b.1 b.2 ++ f ++ mkLogGo bs fs

/-- A run's full text log: the writer's header lines, then the blocks with
their interleaved filler. -/
def mkLog (f0 : List Char) (blocks : List (ℕ × ScoresDict))
    (fillers : List (List Char)) : List Char :=
  f0 ++ mkLogGo blocks fillers

/-- The claim's recovery property as a check: every field value a recovered
record carries, at a `(batch, index)` position the written data also has,
must equal the written score. -/
def scoreRecoveryChk (log : List Char) (blocks : List (ℕ × ScoresDict)) :
    Bool :=
  (parse_evaluation_file log).all fun rec =>
    rec.fields.all fun fv =>
      blocks.all fun bk =>
        if bk.1 = rec.batch then
          match bk.2.lookup fv.1 with
          | some ss =>
            match ss.get? rec.index with
            | some s => fv.2 = scoreValue s
            | none => true
          | none => true
        else true

/-- A log with two bare `metric: number` lines, no batch markers and no
list literals. -/
def c8Text : List Char := "accuracy: 0.8\nrelevance: 0.5\n".toList

/-- Two batches whose blocks list `relevance` before `accuracy` — a metric
order the writer produces when the metrics are requested in that order, but
which differs from the expanded pattern's canonical field order. -/
def c4Blocks : List (ℕ × ScoresDict) :=
  [(1, [("relevance", [Score.val 1]), ("accuracy", [Score.val 0])]),
   (2, [("relevance", [Score.val (mkRat 1 2)]), ("accuracy", [Score.val 1])])]

def c4Log : List Char := mkLog [] c4Blocks [[], []]

/-- The round-trip side conditions on one written score: a float value must
print as a nonempty numeric token that parses back to itself (true of every
decimal the float `repr` produces), and `None` — which the writer would print
as a token the extractor cannot round-trip — is excluded. -/
def ScoreOK : Score → Prop
  | .val q => parseNumTok (renderRat q) = some q ∧ renderRat q ≠ [] ∧
      (∀ ch ∈ renderRat q, isNumChar ch = true)
  | .pyNaN => True
  | .pyNone => False

/-- The rewritten element text after `nan` → `np.nan`. -/
def renderScoreRW : Score → List Char
  | .val q => renderRat q
  | .pyNaN => "np.nan".toList
  | .pyNone => "None".toList

def renderInnerRW : List Score → List Char
  | [] => []
  | [s] => renderScoreRW s
  | s :: rest => renderScoreRW s ++ ',' :: ' ' :: renderInnerRW rest

/-- The characters that can occur inside a canonical rendered score list. -/
def innerOKCh (ch : Char) : Bool :=
  isNumChar ch || ch = 'n' || ch = 'a' || ch = ',' || ch = ' '

/-- A batch as a standard run writes it: the default three metrics, in the
writer's iteration order `accuracy, completeness, relevance`. -/
structure CanonBatch where
  num : ℕ
  acc : List Score
  comp : List Score
  rel : List Score
deriving DecidableEq

def canonDict (B : CanonBatch) : ScoresDict :=
  [("accuracy", B.acc), ("completeness", B.comp), ("relevance", B.rel)]

/-- The groups the expanded pattern captures on a canonical block: the nine
content/ragas groups fail (their tokens never occur), the three metric groups
capture the rendered lists. -/
def canonGroups (B : CanonBatch) : List (Option (List Char)) :=
  [none, none, none, none, none, none, none, none, none,
   some (renderList B.acc), some (renderList B.comp), some (renderList B.rel)]

/-- The field dict the expanded tier builds from a canonical block. -/
def canonFieldDict (B : CanonBatch) : List (String × List Value) :=
  [("user_input", []), ("retrieved_contexts", []), ("response", []),
   ("reference", []), ("context_precision", []), ("answer_relevancy", []),
   ("faithfulness", []), ("context_recall", []),
   ("context_entities_recall", []),
   ("accuracy", B.acc.map scoreValue),
   ("completeness", B.comp.map scoreValue),
   ("relevance", B.rel.map scoreValue)]

/-- The expected extraction output: per batch, one record per index with the
written score's value per metric and the missing marker elsewhere. -/
def canonRecords (Bs : List CanonBatch) : List EvalRecord :=
  Bs.flatMap fun B => buildRecords B.num (canonFieldDict B)

def canonLog (f0 : List Char) (Bs : List CanonBatch)
    (fillers : List (List Char)) : List Char :=
  mkLog f0 (Bs.map fun B => (B.num, canonDict B)) fillers

/-- One metric line followed by the remaining text, right-associated. -/
def lineTail (nm : String) (ss : List Score) (R : List Char) : List Char :=
  nm.toList ++ (": ".toList ++ ('[' :: (renderInner ss ++ (']' :: ('\n' :: R)))))

/-- The nine expanded-pattern groups that a text log never feeds. -/
def unusedFieldNames : List String :=
  ["user_input", "retrieved_contexts", "response", "reference",
   "context_precision", "answer_relevancy", "faithfulness",
   "context_recall", "context_entities_recall"]

/-- A written batch the round trip can recover: well-formed scores and a
nonempty accuracy list (a successful batch writes one score per sample, so
its lists are nonempty; an empty accuracy list would instead trigger the
legacy remap on lines 100-104). -/
def CanonOK (B : CanonBatch) : Prop :=
  (∀ s ∈ B.acc, ScoreOK s) ∧ (∀ s ∈ B.comp, ScoreOK s) ∧
    (∀ s ∈ B.rel, ScoreOK s) ∧ B.acc ≠ []

instance : DecidablePred ScoreOK := fun s =>
  match s with
  | .val q => inferInstanceAs (Decidable (_ ∧ _ ∧ _))
  | .pyNaN => inferInstanceAs (Decidable True)
  | .pyNone => inferInstanceAs (Decidable False)

instance (B : CanonBatch) : Decidable (CanonOK B) :=
  inferInstanceAs (Decidable (_ ∧ _ ∧ _ ∧ _))

def c4AmF0 : List Char := "评估时间: 2024-01-01\n".toList

def c4AmBs : List CanonBatch :=
  [⟨1, [Score.val 1, Score.pyNaN], [Score.val (mkRat 1 2), Score.val 0],
     [Score.val 1, Score.val 1]⟩,
   ⟨2, [Score.val 0], [Score.pyNaN], [Score.val 1]⟩]

def c4AmFills : List (List Char) :=
  ["批次 1 accuracy 平均分: 1.0000\n".toList, "总进度: 3/3 样本\n".toList]

theorem ceil_div_step (m b : ℕ) (hb : 0 < b) (hm : 1 ≤ m) :
    (m + b - 1) / b = (m - b + b - 1) / b + 1 := by
  rcases le_or_lt b m with h | h
  · have h1 : m - b + b - 1 = m - 1 := by omega
    have h2 : m + b - 1 = (m - 1) + b := by omega
    rw [h1, h2, Nat.add_div_right _ hb]
  · have h1 : m - b = 0 := by omega
    have h2 : m + b - 1 = (m - 1) + b := by omega
    rw [h1, h2, Nat.add_div_right _ hb, Nat.zero_add,
      Nat.div_eq_of_lt (by omega), Nat.div_eq_of_lt (by omega)]

theorem batchLoop_spec (n b : ℕ) (hb : 0 < b) :
    ∀ fuel i, n ≤ i + fuel →
      batchLoop n b i fuel =
        (List.range ((n - i + b - 1) / b)).map
          (fun k => (i + k * b, min (i + k * b + b) n)) := by
  intro fuel
  induction fuel with
  | zero =>
    intro i hi
    have h0 : n - i = 0 := by omega
    simp [batchLoop, h0, Nat.div_eq_of_lt (by omega : b - 1 < b)]
  | succ fuel ih =>
    intro i hi
    by_cases hin : i < n
    · have hcount : (n - i + b - 1) / b = (n - (i + b) + b - 1) / b + 1 := by
        have := ceil_div_step (n - i) b hb (by omega)
        have he : n - i - b = n - (i + b) := by omega
        rw [he] at this
        exact this
      rw [batchLoop, if_pos hin, hcount, List.range_succ_eq_map]
      simp only [List.map_cons, List.map_map]
      have hrec := ih (i + b) (by omega)
      rw [hrec]
      refine congrArg₂ _ (by simp) ?_
      refine List.map_congr_left ?_
      intro k _
      simp only [Function.comp_apply]
      have : i + (k + 1) * b = i + b + k * b := by ring
      rw [this]
    · have h0 : n - i = 0 := by omega
      rw [batchLoop, if_neg hin]
      simp [h0, Nat.div_eq_of_lt (by omega : b - 1 < b)]

theorem evalBatches_eq (n b : ℕ) (hb : 0 < b) :
    evalBatches n b =
      (List.range (numBatches n b)).map
        (fun k => (k * b, min (k * b + b) n)) := by
  rw [evalBatches, if_neg (by omega), batchLoop_spec n b hb (n + 1) 0 (by omega)]
  simp [numBatches]

theorem numBatches_pred (n b : ℕ) (hb : 0 < b) (hn : 1 ≤ n) :
    numBatches n b = (n - 1) / b + 1 := by
  have h2 : n + b - 1 = (n - 1) + b := by omega
  rw [numBatches, h2, Nat.add_div_right _ hb]

theorem lookup_mem_keys {α β : Type} [BEq α] [LawfulBEq α]
    {l : List (α × β)} {a : α} {v : β} (h : l.lookup a = some v) :
    a ∈ l.map Prod.fst := by
  induction l with
  | nil => simp [List.lookup] at h
  | cons p rest ih =>
    rw [List.lookup] at h
    cases hk : (a == p.1) with
    | true =>
      simp [beq_iff_eq.mp hk]
    | false =>
      simp only [hk] at h
      simp only [List.map_cons, List.mem_cons]
      exact Or.inr (ih h)

/-- C2: for every evaluated sample count `n ≥ 1` and positive batch size `b`,
the loop `for i in range(0, n, b)` with `batch_end = min(i + b, n)`
(`evaluate_rag.py` lines 136-137) yields exactly `ceil(n/b)` batches, in index
order, batch `k` covering `[k*b, min(k*b+b, n))`; every non-last batch has
exactly `b` samples, and the last has `n mod b` samples (`b` when `b` divides
`n`). -/
theorem c2_batch_partition (n b : ℕ) (hn : 1 ≤ n) (hb : 1 ≤ b) :
    (evalBatches n b).length = numBatches n b ∧
    (∀ k (h : k < (evalBatches n b).length),
      (evalBatches n b).get ⟨k, h⟩ = (k * b, min (k * b + b) n) ∧
      (k + 1 < numBatches n b → min (k * b + b) n - k * b = b) ∧
      (k + 1 = numBatches n b →
        min (k * b + b) n - k * b = if n % b = 0 then b else n % b)) := by
  have hb0 : 0 < b := hb
  have heq := evalBatches_eq n b hb0
  have hpred := numBatches_pred n b hb0 hn
  constructor
  · rw [heq]; simp
  · intro k h
    have hk : k < numBatches n b := by
      rw [heq] at h; simpa using h
    refine ⟨?_, ?_, ?_⟩
    · rw [List.get_of_eq heq]
      simp
    · intro hlt
      have hk1 : k + 1 ≤ (n - 1) / b := by omega
      have h2 : (k + 1) * b ≤ (n - 1) / b * b :=
        Nat.mul_le_mul_right b hk1
      have h3 : (n - 1) / b * b ≤ n - 1 := Nat.div_mul_le_self _ _
      have h5 : (k + 1) * b = k * b + b := by ring
      have h4 : k * b + b ≤ n := by omega
      rw [min_eq_left h4]
      omega
    · intro hlast
      have hkq : k = (n - 1) / b := by omega
      have hdm := Nat.div_add_mod (n - 1) b
      have hr : (n - 1) % b < b := Nat.mod_lt _ hb0
      have hcm : (n - 1) / b * b = b * ((n - 1) / b) := Nat.mul_comm _ _
      have hkb : k * b = n - 1 - (n - 1) % b := by
        rw [hkq]; omega
      have hge : n ≤ k * b + b := by omega
      have hnmod : n % b = ((n - 1) % b + 1) % b := by
        have hn' : n = b * ((n - 1) / b) + ((n - 1) % b + 1) := by omega
        conv_lhs => rw [hn']
        rw [Nat.mul_add_mod]
      rw [min_eq_right hge]
      rcases Nat.lt_or_ge ((n - 1) % b + 1) b with hcase | hcase
      · rw [Nat.mod_eq_of_lt hcase] at hnmod
        rw [if_neg (by omega)]
        omega
      · have hbeq : (n - 1) % b + 1 = b := by omega
        rw [hbeq, Nat.mod_self] at hnmod
        rw [if_pos hnmod]
        omega

theorem c2_batch_partition_checked :
    1 ≤ 5 ∧ 1 ≤ 2 ∧ (evalBatches 5 2).length = numBatches 5 2 :=
  ⟨by decide, by decide, (c2_batch_partition 5 2 (by decide) (by decide)).1⟩

/-- C9: `create_metrics` (`evaluate_rag.py` lines 18-47) returns one metric
object per requested name found in the fixed definition table
{accuracy, completeness, relevance, coherence, conciseness}, in input order
and paired with that name's definition; an unknown name contributes a console
warning instead of a metric (and never raises), so all-unknown input yields an
empty metric list. -/
theorem c9_create_metrics (names : List String) :
    (create_metrics names).1.map AspectCritic.name
        = names.filter (fun nm => (metricsDefinitions.lookup nm).isSome) ∧
    (∀ m ∈ (create_metrics names).1,
        metricsDefinitions.lookup m.name = some m.definition ∧
        m.name ∈ metricsDefinitions.map Prod.fst) ∧
    ((∀ nm ∈ names, metricsDefinitions.lookup nm = none) →
        (create_metrics names).1 = []) ∧
    (create_metrics names).2.length
        = (names.filter (fun nm => (metricsDefinitions.lookup nm).isNone)).length := by
  induction names with
  | nil => simp [create_metrics]
  | cons name rest ih =>
    obtain ⟨ih1, ih2, _ih3, ih4⟩ := ih
    rcases hl : metricsDefinitions.lookup name with _ | d
    · have hcm : create_metrics (name :: rest) =
          ((create_metrics rest).1,
           ("警告: 未知的评估指标 '" ++ name ++ "'，已忽略") ::
             (create_metrics rest).2) := by
        simp only [create_metrics]
        rw [hl]
      refine ⟨?_, ?_, ?_, ?_⟩
      · rw [hcm]
        simpa [List.filter_cons, hl] using ih1
      · intro m hm
        rw [hcm] at hm
        exact ih2 m hm
      · intro hall
        have hmapnil : (create_metrics rest).1.map AspectCritic.name = [] := by
          rw [ih1, List.filter_eq_nil_iff]
          intro nm hnm
          simp [hall nm (by simp [hnm])]
        have hnil : (create_metrics rest).1 = [] :=
          List.map_eq_nil_iff.mp hmapnil
        rw [hcm, hnil]
      · rw [hcm]
        simpa [List.filter_cons, hl] using ih4
    · have hcm : create_metrics (name :: rest) =
          (⟨name, d⟩ :: (create_metrics rest).1, (create_metrics rest).2) := by
        simp only [create_metrics]
        rw [hl]
      refine ⟨?_, ?_, ?_, ?_⟩
      · rw [hcm]
        simpa [List.filter_cons, hl] using ih1
      · intro m hm
        rw [hcm] at hm
        rcases List.mem_cons.mp hm with hm | hm
        · subst hm
          exact ⟨by simpa using hl, lookup_mem_keys hl⟩
        · exact ih2 m hm
      · intro hall
        exact absurd (hall name (by simp)) (by simp [hl])
      · rw [hcm]
        simpa [List.filter_cons, hl] using ih4

theorem lookup_eq_none_of_not_mem_keys {α β : Type} [BEq α] [LawfulBEq α]
    {l : List (α × β)} {a : α} (h : a ∉ l.map Prod.fst) :
    l.lookup a = none := by
  induction l with
  | nil => simp [List.lookup]
  | cons p rest ih =>
    rw [List.lookup]
    have h1 : a ≠ p.1 := by
      intro hc
      exact h (by simp [hc])
    have h2 : (a == p.1) = false := by simpa using h1
    simp only [h2]
    exact ih (fun hc => h (by simp [List.map_cons, List.mem_cons]; right; simpa using hc))

theorem finalizeSummary_foldl (l : ScoresDict) :
    ∀ acc, l.foldl summaryStep acc
      = (acc.1 ++ l.filterMap summaryEntry, acc.2 ++ l.map summaryEvent) := by
  induction l with
  | nil => intro acc; simp
  | cons p rest ih =>
    intro acc
    rw [List.foldl_cons, ih]
    by_cases hv : validScores p.2 = [] <;>
      simp [summaryStep, summaryEntry, summaryEvent, hv]

theorem finalizeSummary_eq (l : ScoresDict) :
    finalizeSummary l = (l.filterMap summaryEntry, l.map summaryEvent) := by
  rw [finalizeSummary, finalizeSummary_foldl]
  simp

theorem summary_keys_sub {l : ScoresDict} {p : String × ℚ}
    (h : p ∈ l.filterMap summaryEntry) : p.1 ∈ l.map Prod.fst := by
  rcases List.mem_filterMap.mp h with ⟨q, hq, hfq⟩
  have : p.1 = q.1 := by
    by_cases hv : validScores q.2 = [] <;>
      simp [summaryEntry, hv] at hfq
    rw [← hfq]
  rw [this]
  exact List.mem_map_of_mem Prod.fst hq

theorem lookup_summary_of_not_mem {l : ScoresDict} {m : String}
    (h : m ∉ l.map Prod.fst) :
    (l.filterMap summaryEntry).lookup m = none := by
  refine lookup_eq_none_of_not_mem_keys ?_
  intro hc
  rcases List.mem_map.mp hc with ⟨p, hp, hfst⟩
  exact h (hfst ▸ summary_keys_sub hp)

theorem mem_of_lookup {α β : Type} [BEq α] [LawfulBEq α]
    {l : List (α × β)} {a : α} {v : β} (h : l.lookup a = some v) :
    (a, v) ∈ l := by
  induction l with
  | nil => simp [List.lookup] at h
  | cons p rest ih =>
    rw [List.lookup] at h
    cases hk : (a == p.1) with
    | true =>
      simp only [hk] at h
      have h1 : a = p.1 := beq_iff_eq.mp hk
      have h2 : v = p.2 := by
        cases h; rfl
      simp [h1, h2]
    | false =>
      simp only [hk] at h
      exact List.mem_cons_of_mem _ (ih h)

theorem lookup_eq_some_of_mem_nodup {α β : Type} [BEq α] [LawfulBEq α]
    {l : List (α × β)} {a : α} {v : β}
    (hnd : (l.map Prod.fst).Nodup) (h : (a, v) ∈ l) :
    l.lookup a = some v := by
  induction l with
  | nil => simp at h
  | cons p rest ih =>
    simp only [List.map_cons, List.nodup_cons] at hnd
    rw [List.lookup]
    rcases List.mem_cons.mp h with hh | hh
    · rw [← hh]
      simp
    · have hne : a ≠ p.1 := by
        intro hc
        exact hnd.1 (hc ▸ List.mem_map_of_mem Prod.fst hh)
      have hb : (a == p.1) = false := by simpa using hne
      simp only [hb]
      exact ih hnd.2 hh

theorem lookup_isSome_of_mem_keys {α β : Type} [BEq α] [LawfulBEq α]
    {l : List (α × β)} {a : α} (h : a ∈ l.map Prod.fst) :
    ∃ v, l.lookup a = some v := by
  induction l with
  | nil => simp at h
  | cons q rest ih =>
    rw [List.lookup]
    cases hk : (a == q.1) with
    | true =>
      simp only [hk]
      exact ⟨q.2, rfl⟩
    | false =>
      simp only [hk]
      refine ih ?_
      rcases List.mem_map.mp h with ⟨p, hp, hfst⟩
      rcases List.mem_cons.mp hp with hq | hq
      · have ha : a = q.1 := by rw [← hfst, hq]
        exact absurd ha (by simpa using hk)
      · exact hfst ▸ List.mem_map_of_mem Prod.fst hq

theorem extendKey_lookupD_same (a : ScoresDict) (m : String)
    (ss : List Score) :
    lookupD (extendKey a m ss) m = lookupD a m ++ ss := by
  induction a with
  | nil => simp [extendKey, lookupD, List.lookup]
  | cons p rest ih =>
    rcases p with ⟨k, v⟩
    rw [extendKey]
    by_cases hk : k = m
    · subst hk
      simp [lookupD, List.lookup]
    · rw [if_neg hk]
      have hb : (m == k) = false := by
        simp [Ne.symm hk]
      simp only [lookupD, List.lookup, hb]
      exact ih

theorem extendKey_lookupD_other (a : ScoresDict) (m m' : String)
    (ss : List Score) (hne : m' ≠ m) :
    lookupD (extendKey a m ss) m' = lookupD a m' := by
  induction a with
  | nil =>
    have hb : (m' == m) = false := by simpa using hne
    simp [extendKey, lookupD, List.lookup, hb]
  | cons p rest ih =>
    rcases p with ⟨k, v⟩
    rw [extendKey]
    by_cases hk : k = m
    · subst hk
      have hb : (m' == k) = false := by simpa using hne
      simp [lookupD, List.lookup, hb]
    · rw [if_neg hk]
      by_cases hk2 : m' = k
      · subst hk2
        simp [lookupD, List.lookup]
      · have hb : (m' == k) = false := by simpa using hk2
        simp only [lookupD, List.lookup, hb]
        exact ih

theorem lookupD_eq_nil_of_not_mem {l : ScoresDict} {m : String}
    (h : m ∉ l.map Prod.fst) : lookupD l m = [] := by
  rw [lookupD, lookup_eq_none_of_not_mem_keys h]
  rfl

theorem mergeScores_lookupD (d : ScoresDict)
    (hnd : (d.map Prod.fst).Nodup) :
    ∀ (acc : ScoresDict) (m : String),
      lookupD (mergeScores acc d) m = lookupD acc m ++ lookupD d m := by
  induction d with
  | nil =>
    intro acc m
    simp [mergeScores, lookupD, List.lookup]
  | cons p rest ih =>
    intro acc m
    simp only [List.map_cons, List.nodup_cons] at hnd
    have hstep : mergeScores acc (p :: rest)
        = mergeScores (extendKey acc p.1 p.2) rest := by
      simp [mergeScores]
    rw [hstep, ih hnd.2]
    by_cases hm : m = p.1
    · subst hm
      rw [extendKey_lookupD_same, lookupD_eq_nil_of_not_mem hnd.1]
      simp [lookupD, List.lookup]
    · rw [extendKey_lookupD_other _ _ _ _ hm]
      have hb : (m == p.1) = false := by simpa using hm
      simp [lookupD, List.lookup, hb]

theorem runBatches_foldl_lookupD (scorer : ℕ → BatchResult) (b : ℕ)
    (m : String) :
    ∀ (batches : List (ℕ × ℕ)),
      (∀ p ∈ batches, ∀ dd, scorer p.1 = .ok dd → (dd.map Prod.fst).Nodup) →
      ∀ st : ScoresDict × List LogEvent,
      lookupD ((batches.foldl (processBatch scorer b) st).1) m
        = lookupD st.1 m ++ (batches.map (batchContrib scorer m)).flatten := by
  intro batches
  induction batches with
  | nil => intro _ st; simp
  | cons p rest ih =>
    intro hnd st
    rw [List.foldl_cons]
    have hrest := ih (fun q hq => hnd q (List.mem_cons_of_mem _ hq))
    rcases hs : scorer p.1 with dd | _ | msg
    · have hstep : processBatch scorer b st p
          = (mergeScores st.1 dd,
             st.2 ++ [.progress (p.1 / b + 1), .batchResults (p.1 / b + 1) dd]
                ++ batchAvgEvents (p.1 / b + 1) dd
                ++ [.batchTime (p.1 / b + 1)]) := by
        simp [processBatch, hs]
      rw [hstep, hrest]
      rw [mergeScores_lookupD dd (hnd p (by simp) dd hs)]
      simp [batchContrib, hs]
    · have hstep : processBatch scorer b st p
          = (st.1, st.2 ++ [.progress (p.1 / b + 1), .noDictMsg,
              .batchTime (p.1 / b + 1)]) := by
        simp [processBatch, hs]
      rw [hstep, hrest]
      simp [batchContrib, hs]
    · have hstep : processBatch scorer b st p
          = (st.1, st.2 ++ [.progress (p.1 / b + 1),
              .batchError (p.1 / b + 1) msg, .continueMsg]) := by
        simp [processBatch, hs]
      rw [hstep, hrest]
      simp [batchContrib, hs]

theorem foldl_events_sub (scorer : ℕ → BatchResult) (b : ℕ) :
    ∀ (batches : List (ℕ × ℕ)) (st : ScoresDict × List LogEvent)
      (x : LogEvent), x ∈ st.2 →
      x ∈ ((batches.foldl (processBatch scorer b) st).2) := by
  intro batches
  induction batches with
  | nil => intro st x hx; simpa using hx
  | cons p rest ih =>
    intro st x hx
    rw [List.foldl_cons]
    refine ih _ x ?_
    rcases hs : scorer p.1 with dd | _ | msg <;>
      simp [processBatch, hs, hx]

theorem foldl_events_err (scorer : ℕ → BatchResult) (b : ℕ)
    (msg : String) :
    ∀ (batches : List (ℕ × ℕ)) (st : ScoresDict × List LogEvent)
      (p : ℕ × ℕ), p ∈ batches → scorer p.1 = .err msg →
      LogEvent.batchError (p.1 / b + 1) msg
        ∈ ((batches.foldl (processBatch scorer b) st).2) := by
  intro batches
  induction batches with
  | nil => intro st p hp; simp at hp
  | cons q rest ih =>
    intro st p hp hs
    rw [List.foldl_cons]
    rcases List.mem_cons.mp hp with hq | hq
    · subst hq
      refine foldl_events_sub scorer b rest _ _ ?_
      simp [processBatch, hs]
    · exact ih _ p hq hs

theorem foldl_events_ok (scorer : ℕ → BatchResult) (b : ℕ)
    (dd : ScoresDict) :
    ∀ (batches : List (ℕ × ℕ)) (st : ScoresDict × List LogEvent)
      (p : ℕ × ℕ), p ∈ batches → scorer p.1 = .ok dd →
      LogEvent.batchResults (p.1 / b + 1) dd
        ∈ ((batches.foldl (processBatch scorer b) st).2) := by
  intro batches
  induction batches with
  | nil => intro st p hp; simp at hp
  | cons q rest ih =>
    intro st p hp hs
    rw [List.foldl_cons]
    rcases List.mem_cons.mp hp with hq | hq
    · subst hq
      refine foldl_events_sub scorer b rest _ _ ?_
      simp [processBatch, hs]
    · exact ih _ p hq hs

theorem batchLoop_sum (n b : ℕ) (hb : 0 < b) :
    ∀ fuel i, n ≤ i + fuel →
      ((batchLoop n b i fuel).map (fun p => p.2 - p.1)).sum = n - i := by
  intro fuel
  induction fuel with
  | zero =>
    intro i hi
    simp [batchLoop]
    omega
  | succ fuel ih =>
    intro i hi
    by_cases hin : i < n
    · rw [batchLoop, if_pos hin]
      simp only [List.map_cons, List.sum_cons]
      rw [ih (i + b) (by omega)]
      omega
    · rw [batchLoop, if_neg hin]
      simp
      omega

theorem evalBatches_sizes_sum (n b : ℕ) (hb : 0 < b) :
    ((evalBatches n b).map (fun p => p.2 - p.1)).sum = n := by
  rw [evalBatches, if_neg (by omega)]
  have := batchLoop_sum n b hb (n + 1) 0 (by omega)
  simpa using this

theorem sum_range_ite (s : ℕ → ℕ) (f : ℕ) :
    ∀ M, f < M →
      ((List.range M).map (fun k => if k = f then 0 else s k)).sum + s f
        = ((List.range M).map s).sum := by
  intro M
  induction M with
  | zero => intro h; omega
  | succ M ih =>
    intro h
    rw [List.range_succ]
    simp only [List.map_append, List.sum_append, List.map_cons, List.map_nil,
      List.sum_cons, List.sum_nil]
    by_cases hf : M = f
    · subst hf
      have hnone : ∀ k ∈ List.range M, (if k = M then 0 else s k) = s k := by
        intro k hk
        rw [if_neg (by simp at hk; omega)]
      rw [List.map_congr_left hnone, if_pos rfl]
      omega
    · have hfM : f < M := by omega
      have := ih hfM
      rw [if_neg hf]
      omega

/-- C1: with exactly one failing batch `f` (0-based) among `numBatches n b`,
the engine (`evaluate_rag.py` lines 136-194) logs a batch error carrying that
batch's 1-based number and the error detail, still logs every other batch's
results (the loop continues past the failure), every requested metric's
aggregated list is shorter than `n` by exactly the failing batch's sample
count, and the final summary is non-empty, computed from the remaining
batches.  The per-batch dicts `d k` satisfy the Scoring Adapter contract:
keys are the requested metric list, one score per sample of the batch. -/
theorem c1_single_batch_failure
    (scorer : ℕ → BatchResult) (n b f : ℕ) (msg : String)
    (L : List String) (d : ℕ → ScoresDict)
    (hb : 1 ≤ b) (hf : f < numBatches n b) (hLnd : L.Nodup)
    (hfail : scorer (f * b) = .err msg)
    (hok : ∀ k, k < numBatches n b → k ≠ f → scorer (k * b) = .ok (d k))
    (hkeys : ∀ k, k < numBatches n b → k ≠ f → (d k).map Prod.fst = L)
    (hlen : ∀ k, k < numBatches n b → k ≠ f →
       ∀ p ∈ d k, p.2.length = min (k * b + b) n - k * b)
    (hvalid : ∃ k, k < numBatches n b ∧ k ≠ f ∧
       ∃ p ∈ d k, validScores p.2 ≠ []) :
    LogEvent.batchError (f + 1) msg ∈ (runBatches scorer n b).2 ∧
    (∀ k, k < numBatches n b → k ≠ f →
       LogEvent.batchResults (k + 1) (d k) ∈ (runBatches scorer n b).2) ∧
    (∀ m ∈ L,
       (lookupD (runBatches scorer n b).1 m).length
         + (min (f * b + b) n - f * b) = n) ∧
    (finalizeSummary (runBatches scorer n b).1).1 ≠ [] := by
  have hb0 : 0 < b := hb
  have heq := evalBatches_eq n b hb0
  have hdivk : ∀ k : ℕ, k * b / b = k := fun k => Nat.mul_div_cancel k hb0
  have hndd : ∀ p ∈ evalBatches n b, ∀ dd, scorer p.1 = .ok dd →
      (dd.map Prod.fst).Nodup := by
    intro p hp dd hs
    rw [heq] at hp
    rcases List.mem_map.mp hp with ⟨k, hk, hpk⟩
    have hkn : k < numBatches n b := List.mem_range.mp hk
    have hp1 : p.1 = k * b := by rw [← hpk]
    rw [hp1] at hs
    by_cases hkf : k = f
    · subst hkf
      rw [hfail] at hs
      cases hs
    · rw [hok k hkn hkf] at hs
      cases hs
      exact (hkeys k hkn hkf) ▸ hLnd
  have hlk := runBatches_foldl_lookupD scorer b
  refine ⟨?_, ?_, ?_, ?_⟩
  · have hmemf : (f * b, min (f * b + b) n) ∈ evalBatches n b := by
      rw [heq]
      exact List.mem_map_of_mem _ (List.mem_range.mpr hf)
    have := foldl_events_err scorer b msg (evalBatches n b) ([], [])
      (f * b, min (f * b + b) n) hmemf hfail
    rw [hdivk f] at this
    exact this
  · intro k hk hkf
    have hmemk : (k * b, min (k * b + b) n) ∈ evalBatches n b := by
      rw [heq]
      exact List.mem_map_of_mem _ (List.mem_range.mpr hk)
    have := foldl_events_ok scorer b (d k) (evalBatches n b) ([], [])
      (k * b, min (k * b + b) n) hmemk (hok k hk hkf)
    rw [hdivk k] at this
    exact this
  · intro m hm
    have hres : lookupD (runBatches scorer n b).1 m
        = ((evalBatches n b).map (batchContrib scorer m)).flatten := by
      rw [runBatches, hlk m (evalBatches n b) hndd ([], [])]
      simp [lookupD, List.lookup]
    rw [hres, List.length_flatten, List.map_map]
    have hpoint : ∀ k ∈ List.range (numBatches n b),
        ((List.length ∘ batchContrib scorer m) ∘
          (fun k => (k * b, min (k * b + b) n))) k
          = (fun k => if k = f then 0 else min (k * b + b) n - k * b) k := by
      intro k hk
      simp only [Function.comp_apply]
      have hkn : k < numBatches n b := List.mem_range.mp hk
      by_cases hkf : k = f
      · subst hkf
        simp [batchContrib, hfail]
      · have hkeq := hkeys k hkn hkf
        have hmkeys : m ∈ (d k).map Prod.fst := hkeq ▸ hm
        obtain ⟨ss, hss⟩ := lookup_isSome_of_mem_keys hmkeys
        have hssmem : (m, ss) ∈ d k := mem_of_lookup hss
        have hlenss : ss.length = min (k * b + b) n - k * b :=
          hlen k hkn hkf (m, ss) hssmem
        simp [batchContrib, hok k hkn hkf, lookupD, hss, hlenss, hkf]
    rw [heq, List.map_map, List.map_congr_left hpoint]
    have hsum := sum_range_ite (fun k => min (k * b + b) n - k * b) f
      (numBatches n b) hf
    have htotal : ((List.range (numBatches n b)).map
        (fun k => min (k * b + b) n - k * b)).sum = n := by
      have := evalBatches_sizes_sum n b hb0
      rw [heq, List.map_map] at this
      simpa using this
    rw [htotal] at hsum
    simpa using hsum
  · obtain ⟨k0, hk0, hk0f, p0, hp0, hv0⟩ := hvalid
    have hnd0 : ((d k0).map Prod.fst).Nodup := (hkeys k0 hk0 hk0f) ▸ hLnd
    have hl0 : (d k0).lookup p0.1 = some p0.2 :=
      lookup_eq_some_of_mem_nodup hnd0 (by simpa using hp0)
    have hcontrib : batchContrib scorer p0.1 (k0 * b, min (k0 * b + b) n)
        = p0.2 := by
      simp [batchContrib, hok k0 hk0 hk0f, lookupD, hl0]
    have hres : lookupD (runBatches scorer n b).1 p0.1
        = ((evalBatches n b).map (batchContrib scorer p0.1)).flatten := by
      rw [runBatches, hlk p0.1 (evalBatches n b) hndd ([], [])]
      simp [lookupD, List.lookup]
    have hmem0 : p0.2 ∈ (evalBatches n b).map (batchContrib scorer p0.1) := by
      rw [heq, List.map_map]
      refine List.mem_map.mpr ⟨k0, List.mem_range.mpr hk0, ?_⟩
      simpa using hcontrib
    obtain ⟨q, hq⟩ := List.exists_mem_of_ne_nil _ hv0
    rcases List.mem_filterMap.mp hq with ⟨x, hx, hfx⟩
    have hxmem : x ∈ lookupD (runBatches scorer n b).1 p0.1 := by
      rw [hres]
      exact List.mem_flatten.mpr ⟨p0.2, hmem0, hx⟩
    have hvres : validScores (lookupD (runBatches scorer n b).1 p0.1) ≠ [] := by
      intro hnil
      have hq2 : q ∈ validScores (lookupD (runBatches scorer n b).1 p0.1) :=
        List.mem_filterMap.mpr ⟨x, hxmem, hfx⟩
      rw [hnil] at hq2
      simp at hq2
    rcases hlr : (runBatches scorer n b).1.lookup p0.1 with _ | full
    · exfalso
      apply hvres
      rw [lookupD, hlr]
      rfl
    · have hmemres : (p0.1, full) ∈ (runBatches scorer n b).1 :=
        mem_of_lookup hlr
      have hfull : lookupD (runBatches scorer n b).1 p0.1 = full := by
        rw [lookupD, hlr]
        rfl
      have hvfull : validScores full ≠ [] := hfull ▸ hvres
      have hse : summaryEntry (p0.1, full)
          = some (p0.1, (validScores full).sum / (validScores full).length) := by
        simp [summaryEntry, hvfull]
      have hin : (p0.1, (validScores full).sum / (validScores full).length)
          ∈ ((runBatches scorer n b).1).filterMap summaryEntry :=
        List.mem_filterMap.mpr ⟨(p0.1, full), hmemres, hse⟩
      have hfin : (finalizeSummary (runBatches scorer n b).1).1
          = ((runBatches scorer n b).1).filterMap summaryEntry := by
        rw [finalizeSummary_eq]
      rw [hfin]
      exact List.ne_nil_of_mem hin

theorem c1_single_batch_failure_checked :
    LogEvent.batchError 2 "boom" ∈ (runBatches c1Scorer 4 2).2 ∧
    (lookupD (runBatches c1Scorer 4 2).1 "accuracy").length + 2 = 4 ∧
    (finalizeSummary (runBatches c1Scorer 4 2).1).1 ≠ [] := by
  have h := c1_single_batch_failure c1Scorer 4 2 1 "boom" ["accuracy"]
    (fun _ => [("accuracy", [.val 1, .val 0])])
    (by decide) (by decide) (by decide) (by decide)
    (by decide) (by decide) (by decide) (by decide)
  exact ⟨h.1, h.2.2.1 "accuracy" (by decide), h.2.2.2⟩

/-- C3: the final summary (`evaluate_rag.py` lines 213-220) assigns each
metric of `all_results` the arithmetic mean of its valid (non-`None`,
non-`nan`) scores when any exist; a metric with no valid score is absent from
the summary mapping and instead gets the "无有效分数" (no valid scores) log
line — never a zero entry.  E.g. `[1.0, nan, 0.5]` yields mean `0.75`. -/
theorem c3_summary_means (l : ScoresDict) (hnd : (l.map Prod.fst).Nodup)
    (m : String) (ss : List Score) (hmem : (m, ss) ∈ l) :
    (validScores ss = [] →
       (finalizeSummary l).1.lookup m = none ∧
       LogEvent.noValidScores m ∈ (finalizeSummary l).2) ∧
    (validScores ss ≠ [] →
       (finalizeSummary l).1.lookup m
         = some ((validScores ss).sum / (validScores ss).length)) := by
  rw [finalizeSummary_eq]
  induction l with
  | nil => simp at hmem
  | cons q rest ih =>
    simp only [List.map_cons, List.nodup_cons] at hnd
    rcases List.mem_cons.mp hmem with hq | hmm
    · subst hq
      constructor
      · intro hv
        constructor
        · simp only [List.filterMap_cons, summaryEntry, hv, if_pos]
          exact lookup_summary_of_not_mem hnd.1
        · simp only [List.map_cons]
          simp [summaryEvent, hv]
      · intro hv
        simp only [List.filterMap_cons]
        rw [show summaryEntry (m, ss)
              = some (m, (validScores ss).sum / (validScores ss).length) by
            simp [summaryEntry, hv]]
        simp [List.lookup]
    · have hne : m ≠ q.1 := by
        intro hc
        exact hnd.1 (hc ▸ List.mem_map_of_mem Prod.fst hmm)
      have ihr := ih hnd.2 hmm
      constructor
      · intro hv
        obtain ⟨ih1, ih2⟩ := ihr.1 hv
        constructor
        · simp only [List.filterMap_cons]
          rcases hq : summaryEntry q with _ | e
          · simpa using ih1
          · have heq : e.1 = q.1 := by
              by_cases hvq : validScores q.2 = [] <;>
                simp [summaryEntry, hvq] at hq
              rw [← hq]
            rw [List.lookup]
            have hbe : (m == e.1) = false := by
              simp [heq, hne]
            simp only [hbe]
            simpa using ih1
        · simp only [List.map_cons, List.mem_cons]
          exact Or.inr ih2
      · intro hv
        have ih2 := ihr.2 hv
        simp only [List.filterMap_cons]
        rcases hq : summaryEntry q with _ | e
        · simpa using ih2
        · have heq : e.1 = q.1 := by
            by_cases hvq : validScores q.2 = [] <;>
              simp [summaryEntry, hvq] at hq
            rw [← hq]
          rw [List.lookup]
          have hbe : (m == e.1) = false := by
            simp [heq, hne]
          simp only [hbe]
          simpa using ih2

theorem c3_summary_means_checked :
    (finalizeSummary
        [("accuracy", [Score.val 1, Score.pyNaN, Score.val (1/2)])]).1.lookup
        "accuracy" = some ((3 : ℚ)/4) ∧
    (finalizeSummary [("relevance", [Score.pyNaN])]).1.lookup "relevance"
        = none := by
  constructor
  · have h := (c3_summary_means
      [("accuracy", [Score.val 1, Score.pyNaN, Score.val (1/2)])] (by simp)
      "accuracy" [Score.val 1, Score.pyNaN, Score.val (1/2)] (by simp)).2
      (by decide)
    rw [h]
    norm_num [validScores, List.filterMap]
  · exact ((c3_summary_means [("relevance", [Score.pyNaN])] (by simp)
      "relevance" [Score.pyNaN] (by simp)).1 (by decide)).1

/-- C6 (counterexample): a dataset path that does not resolve aborts the run
with no summary — but the process exit status is `0`, not non-zero as
claimed: `main.py` line 236 plainly `return`s and the `__main__` wrapper
(lines 285-293) absorbs every exception, so no path exits nonzero. -/
theorem c6_nonzero_exit_refuted :
    (mainRun c6Env).ranEvaluation = false ∧
    (mainRun c6Env).summary = none ∧
    (mainRun c6Env).exitCode = 0 :=
  ⟨rfl, rfl, rfl⟩

/-- C6 (amended): a setup-fatal error — in particular an unresolvable dataset
path — aborts the run before evaluation, with no partial summary produced;
the command's exit status, however, is `0` on every path: zero on completion
(even with partial batch failures) and zero also on setup-time fatal errors. -/
theorem c6_exit_status (env : MainEnv) :
    (mainRun env).exitCode = 0 ∧
    ((mainRun env).ranEvaluation = false → (mainRun env).summary = none) ∧
    (∀ path, mainDatasetPath env = some path →
       env.datasetExists path = false →
       (mainRun env).ranEvaluation = false ∧ (mainRun env).summary = none) := by
  refine ⟨?_, ?_, ?_⟩
  · unfold mainRun
    split
    · rfl
    · split
      · rfl
      · split
        · rfl
        · split
          · rfl
          · split
            · rfl
            · rfl
  · unfold mainRun
    split
    · intro _; rfl
    · split
      · intro _; rfl
      · split
        · intro _; rfl
        · split
          · intro _; rfl
          · split
            · intro _; rfl
            · intro h; simp at h
  · intro path hp hex
    unfold mainRun
    split
    · exact ⟨rfl, rfl⟩
    · split
      · exact ⟨rfl, rfl⟩
      · split
        · exact ⟨rfl, rfl⟩
        · rw [hp]
          simp [hex]

theorem c6_exit_status_checked :
    (mainRun c6Env).exitCode = 0 ∧
    (mainRun c6Env).ranEvaluation = false ∧
    (mainRun c6Env).summary = none := by
  have h := c6_exit_status c6Env
  exact ⟨h.1, h.2.2 "data/missing" rfl rfl⟩

theorem c9_create_metrics_checked :
    (create_metrics ["relevance", "bogus"]).1.map AspectCritic.name
      = ["relevance", "bogus"].filter
          (fun nm => (metricsDefinitions.lookup nm).isSome) ∧
    (create_metrics ["bogus"]).1 = [] :=
  ⟨(c9_create_metrics ["relevance", "bogus"]).1,
   (c9_create_metrics ["bogus"]).2.2.1 (by decide)⟩

/-- C10: the HTML renderer's text truncation (`visualize.py` lines 165-180)
returns any non-string value unchanged, returns strings of length at most 50
(the default maximum) unchanged, and replaces a longer string by exactly its
first 50 characters followed by the three-character suffix `"..."`; being a
total function of the modelled value, it never raises. -/
theorem c10_truncate_text :
    (∀ v : Value, (∀ s, v ≠ Value.vstr s) → truncate_text v 50 = v) ∧
    (∀ s : List Char, s.length ≤ 50 →
       truncate_text (Value.vstr s) 50 = Value.vstr s) ∧
    (∀ s : List Char, 50 < s.length →
       truncate_text (Value.vstr s) 50
         = Value.vstr (s.take 50 ++ "...".toList) ∧
       (s.take 50).length = 50 ∧ ("...".toList).length = 3) := by
  refine ⟨?_, ?_, ?_⟩
  · intro v hv
    cases v with
    | vstr s => exact absurd rfl (hv s)
    | vnum q => rfl
    | vnan => rfl
    | vnone => rfl
    | vbool b => rfl
  · intro s hs
    simp [truncate_text]
    omega
  · intro s hs
    refine ⟨?_, ?_, rfl⟩
    · simp [truncate_text, hs]
    · simp [List.length_take]
      omega

theorem c10_truncate_text_checked :
    truncate_text (Value.vnum 1) 50 = Value.vnum 1 ∧
    truncate_text (Value.vstr "short".toList) 50 = Value.vstr "short".toList ∧
    truncate_text (Value.vstr (List.replicate 60 'x')) 50
      = Value.vstr ((List.replicate 60 'x').take 50 ++ "...".toList) :=
  ⟨c10_truncate_text.1 (Value.vnum 1) (fun _ => by simp),
   c10_truncate_text.2.1 "short".toList (by decide),
   (c10_truncate_text.2.2 (List.replicate 60 'x') (by simp)).1⟩

theorem lookup_map_value {β γ : Type} {l : List (String × β)}
    (hnd : (l.map Prod.fst).Nodup) {nm : String} {vs : β}
    (hm : (nm, vs) ∈ l) (g : β → γ) :
    (l.map (fun p => (p.1, g p.2))).lookup nm = some (g vs) := by
  induction l with
  | nil => simp at hm
  | cons p rest ih =>
    simp only [List.map_cons, List.nodup_cons] at hnd
    rcases List.mem_cons.mp hm with hh | hh
    · rw [← hh]
      simp [List.lookup]
    · have hne : nm ≠ p.1 := by
        intro hc
        exact hnd.1 (hc ▸ List.mem_map_of_mem Prod.fst hh)
      have hb : (nm == p.1) = false := by simpa using hne
      simp only [List.map_cons, List.lookup, hb]
      exact ih hnd.2 hh

/-- C7: for field-level lists extracted for a block (`visualize.py` lines
106-123 for the expanded tier, identically lines 63-71 for the per-metric
tier), the records built number exactly the maximum list length over the
block's fields, with indices `0` to `max-1`; a field shorter than the
maximum is assigned the `np.nan` missing marker at each out-of-range index,
and a field present for only some samples never causes the block's records
to be dropped (the count stays the maximum). -/
theorem c7_build_records (batchNum : ℕ)
    (fields : List (String × List Value))
    (hnd : (fields.map Prod.fst).Nodup) :
    (buildRecords batchNum fields).length = maxFieldLen fields ∧
    (∀ i, i < maxFieldLen fields →
       (buildRecords batchNum fields).get? i
         = some ⟨batchNum, i, fields.map (fun p => (p.1, getOrNan p.2 i))⟩) ∧
    (∀ i, i < maxFieldLen fields → ∀ nm vs, (nm, vs) ∈ fields →
       ∃ rec, (buildRecords batchNum fields).get? i = some rec ∧
         rec.batch = batchNum ∧ rec.index = i ∧
         rec.fields.lookup nm = some (getOrNan vs i)) ∧
    (∀ vs : List Value, ∀ i, vs.length ≤ i → getOrNan vs i = Value.vnan) ∧
    (∀ (vs : List Value) i (h : i < vs.length), getOrNan vs i = vs.get ⟨i, h⟩) := by
  refine ⟨?_, ?_, ?_, ?_, ?_⟩
  · simp [buildRecords]
  · intro i hi
    simp [buildRecords, List.get?_eq_getElem?, hi]
  · intro i hi nm vs hm
    refine ⟨⟨batchNum, i, fields.map (fun p => (p.1, getOrNan p.2 i))⟩,
      ?_, rfl, rfl, ?_⟩
    · simp [buildRecords, List.get?_eq_getElem?, hi]
    · exact lookup_map_value hnd hm (fun l => getOrNan l i)
  · intro vs i h
    simp [getOrNan, List.get?_eq_getElem?, List.getElem?_eq_none h]
  · intro vs i h
    simp [getOrNan, List.get?_eq_getElem?, List.getElem?_eq_getElem h]

theorem c7_build_records_checked :
    (buildRecords 2 [("accuracy", [Value.vnum 1, Value.vnum 0]),
                     ("response", [Value.vstr ['a']])]).length
      = maxFieldLen [("accuracy", [Value.vnum 1, Value.vnum 0]),
                     ("response", [Value.vstr ['a']])] ∧
    (∃ rec, (buildRecords 2 [("accuracy", [Value.vnum 1, Value.vnum 0]),
                     ("response", [Value.vstr ['a']])]).get? 1 = some rec ∧
       rec.batch = 2 ∧ rec.index = 1 ∧
       rec.fields.lookup "response" = some (getOrNan [Value.vstr ['a']] 1)) := by
  have h := c7_build_records 2
    [("accuracy", [Value.vnum 1, Value.vnum 0]),
     ("response", [Value.vstr ['a']])] (by decide)
  exact ⟨h.1, h.2.2.1 1 (by decide) "response" [Value.vstr ['a']] (by simp)⟩

/-- C5: the list-literal evaluator `safe_eval` (`visualize.py` lines 141-163)
is a total function — extraction never raises — that first rewrites the
missing-value token `nan` to the recognized marker `np.nan`, then attempts
structured parsing (`eval`, modelled as the list-literal parser, then JSON
after single-to-double-quote substitution), and on any parse failure returns
`[]` for the field instead of propagating an exception; with all tiers
failing, `parse_evaluation_file` likewise degrades to the empty record list
rather than an error. -/
theorem c5_safe_eval (s : List Char) :
    (s = [] → safeEvalStr s = []) ∧
    (∀ l, pyEvalList (nanRewrite s) = some l → s ≠ [] → safeEvalStr s = l) ∧
    (pyEvalList (nanRewrite s) = none →
       ∀ l, jsonLoads (replaceAll [squote] [dquote] (nanRewrite s)) = some l →
       s ≠ [] → safeEvalStr s = l) ∧
    (pyEvalList (nanRewrite s) = none →
       jsonLoads (replaceAll [squote] [dquote] (nanRewrite s)) = none →
       safeEvalStr s = []) ∧
    (safe_eval none = [] ∧ safe_eval (some s) = safeEvalStr s) ∧
    (finditerExpanded s = [] → finditerBasic s = [] → tier3Results s = [] →
       bareMatches s = [] → parse_evaluation_file s = []) := by
  refine ⟨?_, ?_, ?_, ?_, ⟨rfl, rfl⟩, ?_⟩
  · intro h
    simp [safeEvalStr, h]
  · intro l hp hne
    simp [safeEvalStr, hne, hp]
  · intro hp l hj hne
    simp [safeEvalStr, hne, hp, hj]
  · intro hp hj
    by_cases hne : s = []
    · simp [safeEvalStr, hne]
    · simp [safeEvalStr, hne, hp, hj]
  · intro h1 h2 h3 h4
    simp [parse_evaluation_file, h1, h2, h3, h4, tier3Records]

/-- C8 (counterexample): on a markerless log with two distinct bare metric
occurrences, the fallback tier (`visualize.py` lines 125-137) builds exactly
ONE synthetic record holding both metrics as fields — not "at least one
synthetic record per distinct metric occurrence", which would require two. -/
theorem c8_record_per_metric_refuted :
    (bareMatches c8Text).length = 2 ∧
    ((bareMatches c8Text).map Prod.fst).Nodup ∧
    (parse_evaluation_file c8Text).length = 1 ∧
    ¬ 2 ≤ (parse_evaluation_file c8Text).length := by
  refine ⟨by decide, by decide, by decide, by decide⟩

theorem finditerExpanded_of_no_marker {s : List Char}
    (h : findMarker s = none) : finditerExpanded s = [] := by
  rw [finditerExpanded, finditerExpandedGo, h]

theorem basicMatchAt_of_no_marker {s : List Char}
    (h : markerAt s = none) : basicMatchAt s = none := by
  rw [basicMatchAt, h]

theorem findMarker_cons_none {c : Char} {s : List Char}
    (h : findMarker (c :: s) = none) :
    markerAt (c :: s) = none ∧ findMarker s = none := by
  rw [findMarker] at h
  rcases hm : markerAt (c :: s) with _ | r
  · rw [hm] at h
    exact ⟨rfl, h⟩
  · rw [hm] at h
    cases h

theorem finditerBasicGo_of_no_marker :
    ∀ (fuel : ℕ) (s : List Char), findMarker s = none →
      finditerBasicGo fuel s = [] := by
  intro fuel
  induction fuel with
  | zero => intro s _; rfl
  | succ fuel ih =>
    intro s h
    match s with
    | [] => rfl
    | c :: t =>
      obtain ⟨hma, hfm⟩ := findMarker_cons_none h
      rw [finditerBasicGo, basicMatchAt_of_no_marker hma]
      exact ih t hfm

theorem finditerBasic_of_no_marker {s : List Char}
    (h : findMarker s = none) : finditerBasic s = [] :=
  finditerBasicGo_of_no_marker s.length s h

theorem setAssoc_keys_mem {β : Type} (fs : List (String × β)) (k : String)
    (v : β) (nm : String) :
    nm ∈ (setAssoc fs k v).map Prod.fst ↔ nm ∈ fs.map Prod.fst ∨ nm = k := by
  induction fs with
  | nil => simp [setAssoc]
  | cons p rest ih =>
    rw [setAssoc]
    by_cases hk : p.1 = k
    · subst hk
      constructor
      · intro hmem
        simp at hmem ⊢
        tauto
      · intro hmem
        simp at hmem ⊢
        tauto
    · rw [if_neg hk]
      simp only [List.map_cons, List.mem_cons, ih]
      tauto

theorem fallback_fields_keys (ms : List (String × List Char)) :
    ∀ fs : List (String × Value), ∀ nm : String,
      nm ∈ ((ms.foldl
        (fun fs p =>
          setAssoc fs p.1
            (match parseFloat p.2 with
             | some q => Value.vnum q
             | none => Value.vnan)) fs).map Prod.fst)
        ↔ nm ∈ fs.map Prod.fst ∨ nm ∈ ms.map Prod.fst := by
  induction ms with
  | nil => intro fs nm; simp
  | cons p rest ih =>
    intro fs nm
    rw [List.foldl_cons, ih]
    rw [setAssoc_keys_mem]
    simp only [List.map_cons, List.mem_cons]
    tauto

/-- C8 (amended): on input with no batch markers and no per-metric list
literals but at least one bare `metric: number` occurrence, extraction
reaches the final fallback tier and yields exactly ONE synthetic record
(batch 1, index 0) that carries a field for each distinct matched metric
name — never an empty result. -/
theorem c8_fallback (content : List Char)
    (hm : findMarker content = none)
    (ht3 : ∀ nm ∈ tier3Metrics, searchMetricCapture nm.toList content = none)
    (hbare : bareMatches content ≠ []) :
    parse_evaluation_file content
      = [buildFallbackRecord (bareMatches content)] ∧
    parse_evaluation_file content ≠ [] ∧
    (buildFallbackRecord (bareMatches content)).batch = 1 ∧
    (buildFallbackRecord (bareMatches content)).index = 0 ∧
    (∀ nm, nm ∈ (bareMatches content).map Prod.fst ↔
       nm ∈ (buildFallbackRecord (bareMatches content)).fields.map Prod.fst) := by
  have ht3r : tier3Results content = [] := by
    rw [tier3Results, List.filterMap_eq_nil_iff]
    intro nm hnm
    rw [ht3 nm hnm]
  have hmain : parse_evaluation_file content
      = [buildFallbackRecord (bareMatches content)] := by
    rw [parse_evaluation_file]
    rw [finditerExpanded_of_no_marker hm, finditerBasic_of_no_marker hm]
    simp [tier3Records, ht3r, hbare]
  refine ⟨hmain, by rw [hmain]; simp, rfl, rfl, ?_⟩
  intro nm
  have h := fallback_fields_keys (bareMatches content) [] nm
  rw [buildFallbackRecord]
  constructor
  · intro hmem
    exact h.mpr (Or.inr hmem)
  · intro hmem
    rcases h.mp hmem with hc | hc
    · simp at hc
    · exact hc

theorem c8_fallback_checked :
    parse_evaluation_file c8Text
      = [buildFallbackRecord (bareMatches c8Text)] ∧
    parse_evaluation_file c8Text ≠ [] := by
  have h := c8_fallback c8Text (by decide) (by decide) (by decide)
  exact ⟨h.1, h.2.1⟩

/-- C4 (counterexample): on this two-batch writer log, extraction yields a
single record for batch 1, index 0 whose `relevance` value is `0.5` — batch
2's value — while the written batch-1 value is `1.0`: the lazy `.*?` of the
batch-1 match skips past its own (earlier) `relevance` line and captures
batch 2's, so the claim's "correct numeric value at each matching
`(batch, index)` position" fails. -/
theorem c4_metric_roundtrip_refuted :
    c4Blocks.lookup 1
      = some [("relevance", [Score.val 1]), ("accuracy", [Score.val 0])] ∧
    ((parse_evaluation_file c4Log).map
        (fun r => (r.batch, r.index, r.fields.lookup "relevance")))
      = [(1, 0, some (Value.vnum (mkRat 1 2)))] ∧
    scoreRecoveryChk c4Log c4Blocks = false := by
  refine ⟨by decide, by decide, by decide⟩

/-! ### Round-trip infrastructure: substring and digit lemmas. -/

theorem beginsWith_append_of : ∀ (p s t : List Char),
    beginsWith p s = true → beginsWith p (s ++ t) = true := by
  intro p
  induction p with
  | nil => intro s t _; rfl
  | cons a ps ih =>
    intro s t h
    match s with
    | [] => simp [beginsWith] at h
    | c :: cs =>
      simp only [beginsWith, Bool.and_eq_true, decide_eq_true_eq] at h
      simp only [List.cons_append, beginsWith, Bool.and_eq_true,
        decide_eq_true_eq]
      exact ⟨h.1, ih cs t h.2⟩

theorem beginsWith_append_self : ∀ (x y : List Char),
    beginsWith x (x ++ y) = true := by
  intro x
  induction x with
  | nil => intro y; rfl
  | cons a xs ih =>
    intro y
    simp [beginsWith, ih y]

theorem beginsWith_eq_append : ∀ (p s : List Char),
    beginsWith p s = true → s = p ++ s.drop p.length := by
  intro p
  induction p with
  | nil => intro s _; rfl
  | cons a ps ih =>
    intro s h
    match s with
    | [] => simp [beginsWith] at h
    | c :: cs =>
      simp only [beginsWith, Bool.and_eq_true, decide_eq_true_eq] at h
      simp only [List.cons_append, List.length_cons, List.drop_succ_cons]
      rw [← h.1]
      exact congrArg (a :: ·) (ih cs h.2)

theorem hasSubstr_cons (pat : List Char) (c : Char) (s : List Char) :
    hasSubstr pat (c :: s) = (beginsWith pat (c :: s) || hasSubstr pat s) := by
  rw [hasSubstr, findSubstr]
  by_cases h : beginsWith pat (c :: s) = true
  · simp [h]
  · simp only [Bool.not_eq_true] at h
    simp [h, hasSubstr]

theorem hasSubstr_drop_prefix : ∀ (a : List Char) {pat s : List Char},
    hasSubstr pat (a ++ s) = false → hasSubstr pat s = false := by
  intro a
  induction a with
  | nil => intro pat s h; simpa using h
  | cons c a' ih =>
    intro pat s h
    rw [List.cons_append, hasSubstr_cons, Bool.or_eq_false_iff] at h
    exact ih h.2

theorem hasSubstr_extend : ∀ (a : List Char) {pat : List Char} (b : List Char),
    hasSubstr pat a = true → hasSubstr pat (a ++ b) = true := by
  intro a
  induction a with
  | nil =>
    intro pat b h
    rw [hasSubstr, findSubstr] at h
    by_cases hp : pat = []
    · subst hp
      match b with
      | [] => rfl
      | c :: t => simp [hasSubstr, findSubstr, beginsWith]
    · simp [hp] at h
  | cons c a' ih =>
    intro pat b h
    rw [hasSubstr_cons] at h
    rw [List.cons_append, hasSubstr_cons]
    rcases Bool.or_eq_true_iff.mp h with h1 | h1
    · have hb := beginsWith_append_of pat (c :: a') b h1
      rw [List.cons_append] at hb
      simp [hb]
    · simp [ih b h1]

theorem hasSubstr_here (a pat b : List Char) :
    hasSubstr pat (a ++ (pat ++ b)) = true := by
  induction a with
  | nil =>
    simp only [List.nil_append]
    match pat with
    | [] =>
      match b with
      | [] => rfl
      | c :: t => simp [hasSubstr, findSubstr, beginsWith]
    | p :: ps =>
      rw [List.cons_append, hasSubstr_cons]
      have hb := beginsWith_append_self (p :: ps) b
      rw [List.cons_append] at hb
      simp [hb]
  | cons c a' ih =>
    rw [List.cons_append, hasSubstr_cons, ih]
    simp

theorem digitChar_isDigit {n : ℕ} (h : n < 10) :
    (digitChar n).isDigit = true := by
  interval_cases n <;> decide

theorem digitVal_digitChar {n : ℕ} (h : n < 10) :
    digitVal (digitChar n) = n := by
  interval_cases n <;> decide

theorem isDigit_ne {c c' : Char} (h : c.isDigit = true)
    (h' : c'.isDigit = false) : c ≠ c' := by
  intro e
  rw [e, h'] at h
  cases h

theorem natDigitsGo_append : ∀ (fuel n : ℕ) (acc : List Char),
    natDigitsGo fuel n acc = natDigitsGo fuel n [] ++ acc := by
  intro fuel
  induction fuel with
  | zero => intro n acc; rfl
  | succ fuel ih =>
    intro n acc
    rw [natDigitsGo, natDigitsGo]
    by_cases h : n < 10
    · simp [h]
    · rw [if_neg h, if_neg h, ih (n / 10) (digitChar (n % 10) :: acc),
        ih (n / 10) [digitChar (n % 10)]]
      simp

theorem natDigitsGo_all_digit : ∀ (fuel n : ℕ),
    ∀ ch ∈ natDigitsGo fuel n [], ch.isDigit = true := by
  intro fuel
  induction fuel with
  | zero => intro n ch h; simp [natDigitsGo] at h
  | succ fuel ih =>
    intro n ch h
    rw [natDigitsGo] at h
    by_cases hn : n < 10
    · rw [if_pos hn] at h
      rcases List.mem_singleton.mp h with rfl
      exact digitChar_isDigit hn
    · rw [if_neg hn, natDigitsGo_append] at h
      rcases List.mem_append.mp h with h1 | h1
      · exact ih (n / 10) ch h1
      · rcases List.mem_singleton.mp h1 with rfl
        exact digitChar_isDigit (Nat.mod_lt _ (by omega))

theorem natDigitsGo_ne_nil : ∀ (fuel n : ℕ), 1 ≤ fuel →
    natDigitsGo fuel n [] ≠ [] := by
  intro fuel
  induction fuel with
  | zero => intro n h; omega
  | succ fuel ih =>
    intro n _
    rw [natDigitsGo]
    by_cases hn : n < 10
    · simp [hn]
    · rw [if_neg hn, natDigitsGo_append]
      simp

theorem digitsVal_append_digit (xs : List Char) (d : Char) :
    digitsVal (xs ++ [d]) = digitsVal xs * 10 + digitVal d := by
  rw [digitsVal, digitsVal, List.foldl_append]
  rfl

theorem digitsVal_natDigitsGo : ∀ (fuel n : ℕ), n < 10 ^ fuel →
    digitsVal (natDigitsGo fuel n []) = n := by
  intro fuel
  induction fuel with
  | zero =>
    intro n h
    have : n = 0 := by simpa using h
    subst this
    rfl
  | succ fuel ih =>
    intro n h
    rw [natDigitsGo]
    by_cases hn : n < 10
    · rw [if_pos hn]
      show digitsVal [digitChar n] = n
      rw [show ([digitChar n] : List Char) = [] ++ [digitChar n] from rfl,
        digitsVal_append_digit]
      simp [digitsVal, digitVal_digitChar hn]
    · rw [if_neg hn, natDigitsGo_append, digitsVal_append_digit]
      have hdiv : n / 10 < 10 ^ fuel := by
        rw [pow_succ] at h
        omega
      rw [ih (n / 10) hdiv, digitVal_digitChar (Nat.mod_lt _ (by omega))]
      omega

theorem digitsVal_natToDigits (n : ℕ) : digitsVal (natToDigits n) = n :=
  digitsVal_natDigitsGo (n + 1) n
    (lt_of_lt_of_le (Nat.lt_pow_self (by omega) n) (Nat.pow_le_pow_right (by omega) (by omega)))

theorem natToDigits_all_digit (n : ℕ) :
    ∀ ch ∈ natToDigits n, ch.isDigit = true :=
  natDigitsGo_all_digit (n + 1) n

theorem natToDigits_ne_nil (n : ℕ) : natToDigits n ≠ [] :=
  natDigitsGo_ne_nil (n + 1) n (by omega)

theorem takeWhile_append_all {p : Char → Bool} :
    ∀ {xs : List Char}, (∀ x ∈ xs, p x = true) → ∀ (ys : List Char),
      (xs ++ ys).takeWhile p = xs ++ ys.takeWhile p := by
  intro xs
  induction xs with
  | nil => intro _ ys; rfl
  | cons c t ih =>
    intro h ys
    rw [List.cons_append, List.takeWhile_cons, h c (by simp)]
    simp [ih (fun x hx => h x (by simp [hx])) ys]

theorem hasSubstr_cons_false {pat : List Char} {c : Char} {s : List Char}
    (h : hasSubstr pat (c :: s) = false) : hasSubstr pat s = false :=
  hasSubstr_drop_prefix [c] h

theorem beginsWith_ne_head {p c : Char} {ps cs : List Char} (h : p ≠ c) :
    beginsWith (p :: ps) (c :: cs) = false := by
  simp [beginsWith, h]

theorem markerAt_header (k : ℕ) (rest : List Char) :
    markerAt ("批次 ".toList
        ++ (natToDigits k ++ (" 评估结果:\n".toList ++ rest)))
      = some (k, rest) := by
  have htw : (natToDigits k ++ (" 评估结果:\n".toList ++ rest)).takeWhile
      Char.isDigit = natToDigits k := by
    rw [takeWhile_append_all (natToDigits_all_digit k)]
    rw [show " 评估结果:\n".toList ++ rest
        = ' ' :: ("评估结果:\n".toList ++ rest) from rfl]
    rw [List.takeWhile_cons]
    simp
  have hdrop3 : ("批次 ".toList
      ++ (natToDigits k ++ (" 评估结果:\n".toList ++ rest))).drop 3
      = natToDigits k ++ (" 评估结果:\n".toList ++ rest) := by
    rw [show (3 : ℕ) = ("批次 ".toList).length from rfl, List.drop_left]
  simp only [markerAt]
  rw [if_pos (beginsWith_append_self _ _), hdrop3, htw,
    if_neg (by simpa using natToDigits_ne_nil k), List.drop_left,
    if_pos (beginsWith_append_self _ _), digitsVal_natToDigits,
    show (7 : ℕ) = (" 评估结果:\n".toList).length from rfl, List.drop_left]

theorem markerAt_some {s : List Char} {n : ℕ} {r : List Char}
    (h : markerAt s = some (n, r)) :
    ∃ ds : List Char, (∀ ch ∈ ds, ch.isDigit = true) ∧ ds ≠ [] ∧
      s = "批次 ".toList ++ (ds ++ (" 评估结果:\n".toList ++ r)) := by
  simp only [markerAt] at h
  by_cases h1 : beginsWith "批次 ".toList s = true
  · rw [if_pos h1] at h
    set D := s.drop 3 with hD
    set tw := D.takeWhile Char.isDigit with htwdef
    by_cases h2 : tw = []
    · rw [if_pos h2] at h
      cases h
    · rw [if_neg h2] at h
      by_cases h3 : beginsWith " 评估结果:\n".toList (D.drop tw.length) = true
      · rw [if_pos h3, Option.some.injEq, Prod.mk.injEq] at h
        obtain ⟨hn, hr⟩ := h
        obtain ⟨u, hu⟩ :=
          (List.takeWhile_prefix Char.isDigit : D.takeWhile Char.isDigit <+: D)
        rw [← htwdef] at hu
        have hdropu : D.drop tw.length = u := by
          rw [← hu, List.drop_left]
        have e2 : D = tw ++ D.drop tw.length := by
          rw [hdropu]
          exact hu.symm
        have e3 : D.drop tw.length
            = " 评估结果:\n".toList ++ ((D.drop tw.length).drop 7) := by
          have := beginsWith_eq_append _ _ h3
          simpa using this
        have e1 : s = "批次 ".toList ++ D := by
          have := beginsWith_eq_append _ _ h1
          simpa using this
        refine ⟨tw, fun ch hch => List.mem_takeWhile_imp hch, h2, ?_⟩
        rw [hr] at e3
        conv_lhs => rw [e1, e2, e3]
      · rw [if_neg h3] at h
        cases h
  · rw [if_neg h1] at h
    cases h

theorem markerAt_append_none {y X : List Char}
    (hy : hasSubstr "评估结果:".toList y = false)
    (hX : X = [] ∨ ∃ t, X = '\n' :: t) :
    markerAt (y ++ X) = none := by
  rcases hma : markerAt (y ++ X) with _ | ⟨n, r⟩
  · rfl
  · exfalso
    obtain ⟨ds, hdig, _, hs⟩ := markerAt_some hma
    have hregroup : "批次 ".toList ++ (ds ++ (" 评估结果:\n".toList ++ r))
        = (("批次 ".toList ++ ds ++ [' ']) ++ "评估结果:".toList)
            ++ '\n' :: r := by
      simp only [List.append_assoc]
      rfl
    rw [hregroup] at hs
    set A2 := ("批次 ".toList ++ ds ++ [' ']) ++ "评估结果:".toList with hA2
    have hA2split : A2 = ("批次 ".toList ++ ds ++ [' '])
        ++ "评估结果:".toList := rfl
    have hnlA : ∀ ch ∈ A2, ch ≠ '\n' := by
      intro ch hch
      rw [hA2split] at hch
      simp only [List.append_assoc, List.mem_append] at hch
      rcases hch with h | h | h | h
      · fin_cases h <;> decide
      · exact isDigit_ne (hdig ch h) (by decide)
      · fin_cases h <;> decide
      · fin_cases h <;> decide
    have hyt : y = (A2 ++ '\n' :: r).take y.length := by
      rw [← hs]
      exact (List.take_left y X).symm
    rcases Nat.lt_or_ge A2.length y.length with hlen | hlen
    · have htake : y = A2 ++ ('\n' :: r).take (y.length - A2.length) := by
        conv_lhs => rw [hyt]
        rw [List.take_append_eq_append_take,
          List.take_of_length_le (by omega)]
      have hocc : hasSubstr "评估结果:".toList y = true := by
        rw [htake, hA2split, List.append_assoc]
        exact hasSubstr_here _ _ _
      rw [hocc] at hy
      cases hy
    · rcases Nat.eq_or_lt_of_le hlen with heq | hlt
      · have htake : y = A2 := by
          conv_lhs => rw [hyt]
          rw [heq, List.take_left]
        have hocc : hasSubstr "评估结果:".toList y = true := by
          rw [htake, hA2split]
          have hh := hasSubstr_here ("批次 ".toList ++ ds ++ [' '])
            ("评估结果:".toList) []
          simpa using hh
        rw [hocc] at hy
        cases hy
      · rcases hX with hX | ⟨t, hX⟩
        · rw [hX, List.append_nil] at hs
          have hocc : hasSubstr "评估结果:".toList y = true := by
            rw [hs, hA2split, List.append_assoc]
            exact hasSubstr_here _ _ _
          rw [hocc] at hy
          cases hy
        · have hylen : y.length < (y ++ X).length := by
            rw [hX]
            simp
          have hchar1 : (y ++ X).get ⟨y.length, hylen⟩ = '\n' := by
            simp only [List.get_eq_getElem]
            rw [List.getElem_append_right (Nat.le_refl _)]
            simp [hX]
          have hylen2 : y.length < (A2 ++ '\n' :: r).length := by
            rw [← hs]
            exact hylen
          have hchar2 : (A2 ++ '\n' :: r).get ⟨y.length, hylen2⟩
              = A2.get ⟨y.length, hlt⟩ := by
            simp only [List.get_eq_getElem]
            exact List.getElem_append_left hlt
          have hfin : A2.get ⟨y.length, hlt⟩ = '\n' := by
            rw [← hchar2]
            have h1 := hchar1
            revert h1
            simp only [List.get_eq_getElem]
            simp only [hs]
            intro h1
            exact h1
          exact hnlA _ (List.get_mem _ _ hlt) hfin

theorem findMarker_skip : ∀ (g : List Char) {X : List Char},
    hasSubstr "评估结果:".toList g = false →
    (X = [] ∨ ∃ t, X = '\n' :: t) →
    findMarker (g ++ X) = findMarker X := by
  intro g
  induction g with
  | nil => intro X _ _; rfl
  | cons c g' ih =>
    intro X hg hX
    rw [List.cons_append, findMarker]
    have hma : markerAt ((c :: g') ++ X) = none :=
      markerAt_append_none hg hX
    rw [List.cons_append] at hma
    rw [hma]
    exact ih (hasSubstr_cons_false hg) hX

theorem spanToClose_spec : ∀ {inner : List Char}, (∀ c ∈ inner, c ≠ ']') →
    ∀ (rest : List Char), spanToClose (inner ++ ']' :: rest) = some (inner, rest) := by
  intro inner
  induction inner with
  | nil =>
    intro _ rest
    simp [spanToClose]
  | cons c t ih =>
    intro h rest
    rw [List.cons_append, spanToClose,
      if_neg (h c (by simp)), ih (fun x hx => h x (by simp [hx])) rest]
    rfl

theorem captureField_head {tok inner rest : List Char}
    (htok : tok ≠ []) (hinner : ∀ c ∈ inner, c ≠ ']') :
    captureField tok (tok ++ '[' :: (inner ++ ']' :: rest))
      = some ('[' :: inner ++ [']'], rest) := by
  match tok with
  | t0 :: ts =>
    rw [show (t0 :: ts) ++ '[' :: (inner ++ ']' :: rest)
        = t0 :: (ts ++ '[' :: (inner ++ ']' :: rest)) from rfl]
    rw [captureField]
    have hb : beginsWith ((t0 :: ts) ++ ['['])
        (t0 :: (ts ++ '[' :: (inner ++ ']' :: rest))) = true := by
      have := beginsWith_append_self ((t0 :: ts) ++ ['[']) (inner ++ ']' :: rest)
      simpa using this
    rw [if_pos hb]
    have hdrop : (t0 :: (ts ++ '[' :: (inner ++ ']' :: rest))).drop
        ((t0 :: ts).length + 1) = inner ++ ']' :: rest := by
      rw [show (t0 :: ts).length + 1 = ((t0 :: ts) ++ ['[']).length by simp]
      have := List.drop_left ((t0 :: ts) ++ ['[']) (inner ++ ']' :: rest)
      rw [← this]
      congr 1
      simp
    rw [hdrop, spanToClose_spec hinner rest]

theorem captureField_skip {tok : List Char} {c : Char} {s : List Char}
    (h : beginsWith (tok ++ ['[']) (c :: s) = false) :
    captureField tok (c :: s) = captureField tok s := by
  rw [captureField, if_neg (by simp [h])]

theorem captureField_none : ∀ {s : List Char} {tok : List Char},
    hasSubstr (tok ++ ['[']) s = false → captureField tok s = none := by
  intro s
  induction s with
  | nil => intro tok _; rfl
  | cons c t ih =>
    intro tok h
    rw [hasSubstr_cons, Bool.or_eq_false_iff] at h
    rw [captureField_skip h.1]
    exact ih h.2

theorem pred_ne {p : Char → Bool} {c c' : Char} (h : p c = true)
    (h' : p c' = false) : c ≠ c' := by
  intro e
  rw [e, h'] at h
  cases h

theorem renderScore_charset {s : Score} (h : ScoreOK s) :
    ∀ ch ∈ renderScore s, innerOKCh ch = true := by
  intro ch hch
  match s with
  | .val q =>
    have := h.2.2 ch hch
    simp [innerOKCh, this]
  | .pyNaN =>
    rw [renderScore] at hch
    fin_cases hch <;> decide
  | .pyNone => exact absurd h (by simp [ScoreOK])

theorem renderInner_charset : ∀ {ss : List Score}, (∀ s ∈ ss, ScoreOK s) →
    ∀ ch ∈ renderInner ss, innerOKCh ch = true := by
  intro ss
  induction ss with
  | nil => intro _ ch hch; simp [renderInner] at hch
  | cons s t ih =>
    intro h ch hch
    cases t with
    | nil =>
      rw [show renderInner [s] = renderScore s from rfl] at hch
      exact renderScore_charset (h s (by simp)) ch hch
    | cons s2 t2 =>
      rw [show renderInner (s :: s2 :: t2)
          = renderScore s ++ ',' :: ' ' :: renderInner (s2 :: t2) from rfl] at hch
      rcases List.mem_append.mp hch with h1 | h1
      · exact renderScore_charset (h s (by simp)) ch h1
      · rcases h1 with _ | ⟨_, h1⟩
        · decide
        · rcases h1 with _ | ⟨_, h1⟩
          · decide
          · exact ih (fun x hx => h x (by simp [hx])) ch h1

theorem replaceAllGo_nil (pat rep : List Char) :
    ∀ fuel, replaceAllGo pat rep fuel [] = [] := by
  intro fuel
  cases fuel <;> rfl

theorem replaceAllGo_skip_chunk :
    ∀ (u : List Char), (∀ ch ∈ u, ch ≠ 'n') →
    ∀ (rest : List Char) (fuel : ℕ), u.length ≤ fuel →
      replaceAllGo "nan".toList "np.nan".toList fuel (u ++ rest)
        = u ++ replaceAllGo "nan".toList "np.nan".toList (fuel - u.length) rest := by
  intro u
  induction u with
  | nil => intro _ rest fuel _; simp
  | cons c u' ih =>
    intro h rest fuel hfuel
    match fuel with
    | 0 => simp at hfuel
    | f + 1 =>
      rw [List.cons_append, replaceAllGo]
      have hb : beginsWith ['n', 'a', 'n'] (c :: (u' ++ rest)) = false :=
        beginsWith_ne_head (fun e => h c (by simp) e.symm)
      rw [if_neg (by simp [hb])]
      rw [ih (fun x hx => h x (by simp [hx])) rest f (by simpa using hfuel)]
      simp only [List.cons_append, List.length_cons]
      have he : f + 1 - (u'.length + 1) = f - u'.length := by omega
      rw [he]

theorem replaceAllGo_nan_chunk (rest : List Char) (fuel : ℕ)
    (hfuel : 1 ≤ fuel) :
    replaceAllGo "nan".toList "np.nan".toList fuel ("nan".toList ++ rest)
      = "np.nan".toList
        ++ replaceAllGo "nan".toList "np.nan".toList (fuel - 1) rest := by
  match fuel with
  | 0 => omega
  | f + 1 =>
    rw [show "nan".toList ++ rest = 'n' :: ('a' :: 'n' :: rest) from rfl,
      replaceAllGo]
    rw [if_pos (show beginsWith "nan".toList ('n' :: 'a' :: 'n' :: rest) = true
      from rfl)]
    rfl

theorem nanRewriteGo_inner :
    ∀ (ss : List Score), (∀ s ∈ ss, ScoreOK s) →
    ∀ (rest : List Char) (fuel : ℕ),
      (renderInner ss).length + rest.length ≤ fuel →
      ∃ fuel', rest.length ≤ fuel' ∧
        replaceAllGo "nan".toList "np.nan".toList fuel (renderInner ss ++ rest)
          = renderInnerRW ss
            ++ replaceAllGo "nan".toList "np.nan".toList fuel' rest := by
  intro ss
  induction ss with
  | nil =>
    intro _ rest fuel hfuel
    exact ⟨fuel, by simpa [renderInner] using hfuel,
      by simp [renderInner, renderInnerRW]⟩
  | cons s t ih =>
    intro h rest fuel hfuel
    have hsOK := h s (by simp)
    cases t with
    | nil =>
      rw [show renderInner [s] = renderScore s from rfl] at hfuel ⊢
      rw [show renderInnerRW [s] = renderScoreRW s from rfl]
      cases s with
      | val q =>
        have hch : ∀ ch ∈ renderRat q, ch ≠ 'n' := fun ch hc =>
          pred_ne (hsOK.2.2 ch hc) (by decide)
        rw [show renderScore (Score.val q) = renderRat q from rfl] at hfuel ⊢
        rw [show renderScoreRW (Score.val q) = renderRat q from rfl]
        refine ⟨fuel - (renderRat q).length, by omega, ?_⟩
        exact replaceAllGo_skip_chunk _ hch rest fuel (by omega)
      | pyNaN =>
        rw [show renderScore Score.pyNaN = "nan".toList from rfl] at hfuel ⊢
        rw [show renderScoreRW Score.pyNaN = "np.nan".toList from rfl]
        refine ⟨fuel - 1, by simp at hfuel; omega, ?_⟩
        exact replaceAllGo_nan_chunk rest fuel (by simp at hfuel; omega)
      | pyNone => exact absurd hsOK (by simp [ScoreOK])
    | cons s2 t2 =>
      rw [show renderInner (s :: s2 :: t2)
          = renderScore s ++ ',' :: ' ' :: renderInner (s2 :: t2) from rfl]
        at hfuel ⊢
      rw [show renderInnerRW (s :: s2 :: t2)
          = renderScoreRW s ++ ',' :: ' ' :: renderInnerRW (s2 :: t2) from rfl]
      have hstep1 : ∃ fuelm,
          ((',' :: ' ' :: renderInner (s2 :: t2)) ++ rest).length ≤ fuelm ∧
          replaceAllGo "nan".toList "np.nan".toList fuel
            ((renderScore s ++ ',' :: ' ' :: renderInner (s2 :: t2)) ++ rest)
          = renderScoreRW s ++ replaceAllGo "nan".toList "np.nan".toList fuelm
              ((',' :: ' ' :: renderInner (s2 :: t2)) ++ rest) := by
        cases s with
        | val q =>
          have hch : ∀ ch ∈ renderRat q, ch ≠ 'n' := fun ch hc =>
            pred_ne (hsOK.2.2 ch hc) (by decide)
          rw [show renderScore (Score.val q) = renderRat q from rfl] at hfuel ⊢
          rw [show renderScoreRW (Score.val q) = renderRat q from rfl]
          refine ⟨fuel - (renderRat q).length, by simp at hfuel ⊢; omega, ?_⟩
          rw [List.append_assoc]
          exact replaceAllGo_skip_chunk _ hch _ fuel (by simp at hfuel; omega)
        | pyNaN =>
          rw [show renderScore Score.pyNaN = "nan".toList from rfl] at hfuel ⊢
          rw [show renderScoreRW Score.pyNaN = "np.nan".toList from rfl]
          refine ⟨fuel - 1, by simp at hfuel ⊢; omega, ?_⟩
          rw [List.append_assoc]
          exact replaceAllGo_nan_chunk _ fuel (by simp at hfuel; omega)
        | pyNone => exact absurd hsOK (by simp [ScoreOK])
      obtain ⟨fuelm, hfmlen, hfm⟩ := hstep1
      have hstep2 : replaceAllGo "nan".toList "np.nan".toList fuelm
            ((',' :: ' ' :: renderInner (s2 :: t2)) ++ rest)
          = ',' :: ' ' :: replaceAllGo "nan".toList "np.nan".toList (fuelm - 2)
              (renderInner (s2 :: t2) ++ rest) := by
        have hc := replaceAllGo_skip_chunk [',', ' '] (by decide)
          (renderInner (s2 :: t2) ++ rest) fuelm (by simp at hfmlen ⊢; omega)
        simpa using hc
      obtain ⟨fuel', hf'len, hf'⟩ := ih (fun x hx => h x (by simp [hx])) rest
        (fuelm - 2) (by simp at hfmlen; omega)
      refine ⟨fuel', hf'len, ?_⟩
      rw [hfm, hstep2, hf']
      simp

theorem skipSpaces_cons {c : Char} (h : c ≠ ' ') (s : List Char) :
    skipSpaces (c :: s) = c :: s := by
  simp [skipSpaces, List.dropWhile_cons, h]

theorem parseListItems_space (fuel : ℕ) (s : List Char) :
    parseListItems fuel (' ' :: s) = parseListItems fuel s := by
  cases fuel with
  | zero => rfl
  | succ f =>
    have hs : skipSpaces (' ' :: s) = skipSpaces s := by
      simp [skipSpaces]
    rw [parseListItems, parseListItems, hs]

theorem parseAtomV_npnan (u : List Char) :
    parseAtomV ("np.nan".toList ++ u) = some (.vnan, u) := by
  rw [parseAtomV, if_pos (beginsWith_append_self "np.nan".toList u)]
  have hd : ("np.nan".toList ++ u).drop 6 = u := by
    rw [show (6 : ℕ) = "np.nan".toList.length from rfl]
    exact List.drop_left _ _
  rw [hd]

theorem parseAtomV_num : ∀ {v : List Char}, v ≠ [] →
    (∀ ch ∈ v, isNumChar ch = true) → ∀ {q : ℚ}, parseNumTok v = some q →
    ∀ {u : List Char}, u.takeWhile isNumChar = [] →
    parseAtomV (v ++ u) = some (.vnum q, u) := by
  intro v hne hch q hp u hu
  match v, hne with
  | c :: v', _ =>
    have hc : isNumChar c = true := hch c (by simp)
    have hbw : ∀ (p : Char) (ps : List Char), isNumChar p = false →
        beginsWith (p :: ps) ((c :: v') ++ u) = false := by
      intro p ps hps
      exact beginsWith_ne_head (fun e => by rw [e, hc] at hps; cases hps)
    have h1 : beginsWith "np.nan".toList ((c :: v') ++ u) = false :=
      hbw 'n' "p.nan".toList (by decide)
    have h2 : beginsWith "None".toList ((c :: v') ++ u) = false :=
      hbw 'N' "one".toList (by decide)
    have h3 : beginsWith "True".toList ((c :: v') ++ u) = false :=
      hbw 'T' "rue".toList (by decide)
    have h4 : beginsWith "False".toList ((c :: v') ++ u) = false :=
      hbw 'F' "alse".toList (by decide)
    have h5 : beginsWith [squote] ((c :: v') ++ u) = false :=
      hbw squote [] (by decide)
    have h6 : beginsWith [dquote] ((c :: v') ++ u) = false :=
      hbw dquote [] (by decide)
    have htok : ((c :: v') ++ u).takeWhile isNumChar = c :: v' := by
      rw [takeWhile_append_all hch u, hu, List.append_nil]
    have hd : ((c :: v') ++ u).drop (c :: v').length = u := List.drop_left _ _
    simp only [parseAtomV, h1, h2, h3, h4, h5, h6, Bool.false_eq_true,
      if_false, htok, hp, Option.map_some, hd]
    simp

theorem parseAtom_renderScoreRW {s : Score} (h : ScoreOK s) {u : List Char}
    (hu : u.takeWhile isNumChar = []) :
    parseAtomV (renderScoreRW s ++ u) = some (scoreValue s, u) := by
  cases s with
  | val q => exact parseAtomV_num h.2.1 h.2.2 h.1 hu
  | pyNaN => exact parseAtomV_npnan u
  | pyNone => exact absurd h (by simp [ScoreOK])

theorem skipSpaces_renderScoreRW {s : Score} (h : ScoreOK s) (u : List Char) :
    skipSpaces (renderScoreRW s ++ u) = renderScoreRW s ++ u := by
  cases s with
  | val q =>
    rcases hvv : renderRat q with _ | ⟨c, v'⟩
    · exact absurd hvv h.2.1
    · have hc : isNumChar c = true := h.2.2 c (by rw [hvv]; simp)
      rw [show renderScoreRW (Score.val q) = renderRat q from rfl, hvv]
      simpa using skipSpaces_cons (pred_ne hc (by decide)) (v' ++ u)
  | pyNaN =>
    rw [show renderScoreRW Score.pyNaN = "np.nan".toList from rfl]
    simpa using skipSpaces_cons (show 'n' ≠ ' ' from by decide)
      ("p.nan".toList ++ u)
  | pyNone => exact absurd h (by simp [ScoreOK])

theorem parseListItems_render :
    ∀ (ss : List Score), ss ≠ [] → (∀ s ∈ ss, ScoreOK s) →
    ∀ (r : List Char) (fuel : ℕ), (renderInnerRW ss).length + 1 ≤ fuel →
      parseListItems fuel (renderInnerRW ss ++ ']' :: r)
        = some (ss.map scoreValue, r) := by
  intro ss
  induction ss with
  | nil => intro hne; exact absurd rfl hne
  | cons s ts ih =>
    intro _ h r fuel hfuel
    have hsOK := h s (by simp)
    cases fuel with
    | zero => exact absurd hfuel (by omega)
    | succ f =>
      cases ts with
      | nil =>
        rw [show renderInnerRW [s] = renderScoreRW s from rfl]
        have htw : (']' :: r).takeWhile isNumChar = [] := by
          simp [List.takeWhile_cons, show isNumChar ']' = false from by decide]
        have ha := parseAtom_renderScoreRW hsOK htw
        have hss := skipSpaces_renderScoreRW hsOK (']' :: r)
        simp only [parseListItems, hss, ha]
        rw [skipSpaces_cons (show ']' ≠ ' ' from by decide) r]
        rfl
      | cons s2 ts' =>
        rw [show renderInnerRW (s :: s2 :: ts')
            = renderScoreRW s ++ ',' :: ' ' :: renderInnerRW (s2 :: ts')
          from rfl] at hfuel ⊢
        rw [List.append_assoc]
        have htw : ((',' :: ' ' :: renderInnerRW (s2 :: ts'))
            ++ ']' :: r).takeWhile isNumChar = [] := by
          simp [List.cons_append, List.takeWhile_cons,
            show isNumChar ',' = false from by decide]
        have ha := parseAtom_renderScoreRW hsOK htw
        have hss := skipSpaces_renderScoreRW hsOK
          ((',' :: ' ' :: renderInnerRW (s2 :: ts')) ++ ']' :: r)
        simp only [parseListItems, hss, ha]
        rw [show (',' :: ' ' :: renderInnerRW (s2 :: ts')) ++ ']' :: r
            = ',' :: ' ' :: (renderInnerRW (s2 :: ts') ++ ']' :: r) from by
          simp]
        rw [skipSpaces_cons (show ',' ≠ ' ' from by decide)]
        have hrec := ih (by simp) (fun x hx => h x (by simp [hx])) r f (by
          simp only [List.length_append, List.length_cons] at hfuel
          omega)
        simp only [parseListItems_space, hrec, Option.map_some, List.map_cons]
        rfl

theorem renderScoreRW_head {s : Score} (h : ScoreOK s) :
    ∃ c cs, renderScoreRW s = c :: cs ∧ (isNumChar c = true ∨ c = 'n') := by
  cases s with
  | val q =>
    rcases hvv : renderRat q with _ | ⟨c, v'⟩
    · exact absurd hvv h.2.1
    · exact ⟨c, v', hvv, Or.inl (h.2.2 c (by rw [hvv]; simp))⟩
  | pyNaN => exact ⟨'n', "p.nan".toList, rfl, Or.inr rfl⟩
  | pyNone => exact absurd h (by simp [ScoreOK])

theorem pyEvalList_render {ss : List Score} (hne : ss ≠ [])
    (h : ∀ s ∈ ss, ScoreOK s) :
    pyEvalList (('[' :: renderInnerRW ss) ++ [']'])
      = some (ss.map scoreValue) := by
  match ss, hne with
  | s :: ts, _ =>
    have hsOK := h s (by simp)
    rw [pyEvalList]
    rw [show ('[' :: renderInnerRW (s :: ts)) ++ [']']
        = '[' :: (renderInnerRW (s :: ts) ++ [']']) from rfl]
    rw [skipSpaces_cons (show '[' ≠ ' ' from by decide)]
    have hrw : ∃ u, renderInnerRW (s :: ts) ++ [']']
        = renderScoreRW s ++ u := by
      cases ts with
      | nil => exact ⟨[']'], rfl⟩
      | cons s2 ts' =>
        refine ⟨(',' :: ' ' :: renderInnerRW (s2 :: ts')) ++ [']'], ?_⟩
        rw [show renderInnerRW (s :: s2 :: ts')
            = renderScoreRW s ++ ',' :: ' ' :: renderInnerRW (s2 :: ts')
          from rfl]
        simp
    obtain ⟨u, hu⟩ := hrw
    obtain ⟨c, cs, hcs, hcok⟩ := renderScoreRW_head hsOK
    split
    · rename_i t heq
      injection heq with _ ht
      subst ht
      split
      · rename_i r2 heq2
        rw [hu, skipSpaces_renderScoreRW hsOK, hcs] at heq2
        have hcne : c ≠ ']' := by
          rcases hcok with hnum | hn
          · exact pred_ne hnum (by decide)
          · rw [hn]; decide
        exact absurd (List.head_eq_of_cons_eq heq2) hcne
      · rename_i hno
        have hpl := parseListItems_render (s :: ts) (by simp) h []
          ((renderInnerRW (s :: ts) ++ [']']).length + 1)
          (by simp only [List.length_append, List.length_cons,
            List.length_nil]; omega)
        rw [hpl]
        rfl
    · rename_i hno
      exact absurd rfl (hno (renderInnerRW (s :: ts) ++ [']']))

theorem nanRewrite_renderList {ss : List Score} (h : ∀ s ∈ ss, ScoreOK s) :
    nanRewrite (renderList ss) = ('[' :: renderInnerRW ss) ++ [']'] := by
  rw [nanRewrite, replaceAll, if_neg (by decide), renderList]
  have hgen : ∀ fuel, (renderInner ss).length + 2 ≤ fuel →
      replaceAllGo "nan".toList "np.nan".toList fuel
        (('[' :: renderInner ss) ++ [']'])
      = ('[' :: renderInnerRW ss) ++ [']'] := by
    intro fuel hfuel
    have h1 : replaceAllGo "nan".toList "np.nan".toList fuel
        ('[' :: (renderInner ss ++ [']']))
        = '[' :: replaceAllGo "nan".toList "np.nan".toList (fuel - 1)
            (renderInner ss ++ [']']) := by
      simpa using replaceAllGo_skip_chunk ['['] (by decide)
        (renderInner ss ++ [']']) fuel
        (by simp only [List.length_cons, List.length_nil]; omega)
    obtain ⟨fuel', hf1, h2⟩ := nanRewriteGo_inner ss h [']'] (fuel - 1)
      (by simp only [List.length_cons, List.length_nil]; omega)
    have h3 : replaceAllGo "nan".toList "np.nan".toList fuel' [']'] = [']'] := by
      have hc := replaceAllGo_skip_chunk [']'] (by decide) [] fuel'
        (by simp only [List.length_cons, List.length_nil] at hf1 ⊢; omega)
      simpa [replaceAllGo_nil] using hc
    rw [show ('[' :: renderInner ss) ++ [']']
        = '[' :: (renderInner ss ++ [']']) from rfl]
    rw [h1, h2, h3]
    simp
  exact hgen _ (by
    simp only [List.length_append, List.length_cons, List.length_nil]; omega)

theorem safeEvalStr_of_pyEval {s : List Char} (hne : s ≠ [])
    {l : List Value} (hp : pyEvalList (nanRewrite s) = some l) :
    safeEvalStr s = l := by
  rw [safeEvalStr, if_neg hne]
  simp only [hp]

theorem safeEvalStr_renderList {ss : List Score} (h : ∀ s ∈ ss, ScoreOK s) :
    safeEvalStr (renderList ss) = ss.map scoreValue := by
  cases ss with
  | nil => decide
  | cons s ts =>
    exact safeEvalStr_of_pyEval (by simp [renderList])
      (by rw [nanRewrite_renderList h]; exact pyEvalList_render (by simp) h)

theorem findMarker_newline (X : List Char) :
    findMarker ('\n' :: X) = findMarker X := by
  rw [findMarker]
  have hma : markerAt ('\n' :: X) = none := by
    have hb : beginsWith ['批', '次', ' '] ('\n' :: X) = false :=
      beginsWith_ne_head (by decide)
    simp only [markerAt]
    rw [if_neg (by simp [hb])]
  rw [hma]

theorem findMarker_header (k : ℕ) (rest : List Char) :
    findMarker ("批次 ".toList
        ++ (natToDigits k ++ (" 评估结果:\n".toList ++ rest)))
      = some (k, rest) := by
  rw [show "批次 ".toList ++ (natToDigits k ++ (" 评估结果:\n".toList ++ rest))
      = '批' :: ("次 ".toList ++ (natToDigits k
        ++ (" 评估结果:\n".toList ++ rest))) from rfl]
  rw [findMarker]
  rw [show markerAt ('批' :: ("次 ".toList ++ (natToDigits k
        ++ (" 评估结果:\n".toList ++ rest))))
      = markerAt ("批次 ".toList ++ (natToDigits k
        ++ (" 评估结果:\n".toList ++ rest))) from rfl]
  rw [markerAt_header]

theorem finditerExpandedGo_congr {s t : List Char}
    (h : findMarker s = findMarker t) :
    ∀ fuel, finditerExpandedGo fuel s = finditerExpandedGo fuel t := by
  intro fuel
  cases fuel with
  | zero => rfl
  | succ f => rw [finditerExpandedGo, finditerExpandedGo, h]

theorem blockText_length (k : ℕ) (d : ScoresDict) :
    1 ≤ (blockText k d).length := by
  rw [blockText]
  simp

theorem mkLogGo_length : ∀ (bs : List (ℕ × ScoresDict))
    (fs : List (List Char)), bs.length ≤ (mkLogGo bs fs).length := by
  intro bs
  induction bs with
  | nil => intro fs; simp [mkLogGo]
  | cons b bs' ih =>
    intro fs
    cases fs with
    | nil =>
      have h1 := blockText_length b.1 b.2
      have h2 := ih []
      rw [mkLogGo]
      simp only [List.length_append, List.length_cons]
      omega
    | cons f fs' =>
      have h1 := blockText_length b.1 b.2
      have h2 := ih fs'
      rw [mkLogGo]
      simp only [List.length_append, List.length_cons]
      omega

theorem mkLogGo_shape (bs : List (ℕ × ScoresDict)) (fs : List (List Char)) :
    mkLogGo bs fs = [] ∨ ∃ t, mkLogGo bs fs = '\n' :: t := by
  cases bs with
  | nil => exact Or.inl rfl
  | cons b bs' =>
    cases fs with
    | nil => exact Or.inr ⟨_, rfl⟩
    | cons f fs' => exact Or.inr ⟨_, rfl⟩

theorem matchFieldsGo_none {nm : String} {toks : List String}
    {s : List Char}
    (h : captureField (nm.toList ++ ": ".toList) s = none) :
    matchFieldsGo (nm :: toks) s
      = (none :: (matchFieldsGo toks s).1, (matchFieldsGo toks s).2) := by
  simp only [matchFieldsGo, h]

theorem matchFieldsGo_some {nm : String} {toks : List String}
    {s cap rest : List Char}
    (h : captureField (nm.toList ++ ": ".toList) s = some (cap, rest)) :
    matchFieldsGo (nm :: toks) s
      = (some cap :: (matchFieldsGo toks rest).1,
         (matchFieldsGo toks rest).2) := by
  simp only [matchFieldsGo, h]

theorem captureField_lineTail (nm : String) {ss : List Score}
    (h : ∀ s ∈ ss, ScoreOK s) (R : List Char) :
    captureField (nm.toList ++ ": ".toList) (lineTail nm ss R)
      = some (renderList ss, '\n' :: R) := by
  have hinner : ∀ c ∈ renderInner ss, c ≠ ']' := fun c hc =>
    pred_ne (renderInner_charset h c hc) (by decide)
  have htok : nm.toList ++ ": ".toList ≠ [] := by simp
  have hh := @captureField_head (nm.toList ++ ": ".toList) (renderInner ss)
    ('\n' :: R) htok hinner
  rw [lineTail, ← List.append_assoc]
  exact hh

theorem matchFields_block {acc comp rel : List Score}
    (hacc : ∀ s ∈ acc, ScoreOK s) (hcomp : ∀ s ∈ comp, ScoreOK s)
    (hrel : ∀ s ∈ rel, ScoreOK s) (tail : List Char)
    (h9 : ∀ nm ∈ unusedFieldNames,
      hasSubstr (nm.toList ++ ": [".toList)
        (lineTail "accuracy" acc (lineTail "completeness" comp
          (lineTail "relevance" rel tail))) = false) :
    matchFieldsGo expandedFieldNames
        (lineTail "accuracy" acc (lineTail "completeness" comp
          (lineTail "relevance" rel tail)))
      = ([none, none, none, none, none, none, none, none, none,
          some (renderList acc), some (renderList comp),
          some (renderList rel)],
         '\n' :: tail) := by
  have hc1 : captureField ("user_input".toList ++ ": ".toList)
      (lineTail "accuracy" acc (lineTail "completeness" comp
        (lineTail "relevance" rel tail))) = none :=
    captureField_none (h9 "user_input" (by decide))
  have hc2 : captureField ("retrieved_contexts".toList ++ ": ".toList)
      (lineTail "accuracy" acc (lineTail "completeness" comp
        (lineTail "relevance" rel tail))) = none :=
    captureField_none (h9 "retrieved_contexts" (by decide))
  have hc3 : captureField ("response".toList ++ ": ".toList)
      (lineTail "accuracy" acc (lineTail "completeness" comp
        (lineTail "relevance" rel tail))) = none :=
    captureField_none (h9 "response" (by decide))
  have hc4 : captureField ("reference".toList ++ ": ".toList)
      (lineTail "accuracy" acc (lineTail "completeness" comp
        (lineTail "relevance" rel tail))) = none :=
    captureField_none (h9 "reference" (by decide))
  have hc5 : captureField ("context_precision".toList ++ ": ".toList)
      (lineTail "accuracy" acc (lineTail "completeness" comp
        (lineTail "relevance" rel tail))) = none :=
    captureField_none (h9 "context_precision" (by decide))
  have hc6 : captureField ("answer_relevancy".toList ++ ": ".toList)
      (lineTail "accuracy" acc (lineTail "completeness" comp
        (lineTail "relevance" rel tail))) = none :=
    captureField_none (h9 "answer_relevancy" (by decide))
  have hc7 : captureField ("faithfulness".toList ++ ": ".toList)
      (lineTail "accuracy" acc (lineTail "completeness" comp
        (lineTail "relevance" rel tail))) = none :=
    captureField_none (h9 "faithfulness" (by decide))
  have hc8 : captureField ("context_recall".toList ++ ": ".toList)
      (lineTail "accuracy" acc (lineTail "completeness" comp
        (lineTail "relevance" rel tail))) = none :=
    captureField_none (h9 "context_recall" (by decide))
  have hc9 : captureField ("context_entities_recall".toList ++ ": ".toList)
      (lineTail "accuracy" acc (lineTail "completeness" comp
        (lineTail "relevance" rel tail))) = none :=
    captureField_none (h9 "context_entities_recall" (by decide))
  have hca : captureField ("accuracy".toList ++ ": ".toList)
      (lineTail "accuracy" acc (lineTail "completeness" comp
        (lineTail "relevance" rel tail)))
      = some (renderList acc,
          '\n' :: lineTail "completeness" comp (lineTail "relevance" rel tail)) :=
    captureField_lineTail "accuracy" hacc _
  have hcc : captureField ("completeness".toList ++ ": ".toList)
      ('\n' :: lineTail "completeness" comp (lineTail "relevance" rel tail))
      = some (renderList comp, '\n' :: lineTail "relevance" rel tail) := by
    rw [captureField_skip (beginsWith_ne_head (by decide))]
    exact captureField_lineTail "completeness" hcomp _
  have hcr : captureField ("relevance".toList ++ ": ".toList)
      ('\n' :: lineTail "relevance" rel tail)
      = some (renderList rel, '\n' :: tail) := by
    rw [captureField_skip (beginsWith_ne_head (by decide))]
    exact captureField_lineTail "relevance" hrel _
  rw [show expandedFieldNames
      = "user_input" :: "retrieved_contexts" :: "response" :: "reference"
        :: "context_precision" :: "answer_relevancy" :: "faithfulness"
        :: "context_recall" :: "context_entities_recall"
        :: "accuracy" :: "completeness" :: "relevance" :: [] from rfl]
  rw [matchFieldsGo_none hc1, matchFieldsGo_none hc2, matchFieldsGo_none hc3,
    matchFieldsGo_none hc4, matchFieldsGo_none hc5, matchFieldsGo_none hc6,
    matchFieldsGo_none hc7, matchFieldsGo_none hc8, matchFieldsGo_none hc9,
    matchFieldsGo_some hca, matchFieldsGo_some hcc, matchFieldsGo_some hcr]
  simp [matchFieldsGo]

theorem finditerExpandedGo_canon :
    ∀ (Bs : List CanonBatch) (fillers : List (List Char)),
      (∀ B ∈ Bs, CanonOK B) →
      (∀ f ∈ fillers, hasSubstr "评估结果:".toList f = false) →
      fillers.length = Bs.length →
      (∀ nm ∈ unusedFieldNames, hasSubstr (nm.toList ++ ": [".toList)
        (mkLogGo (Bs.map fun x => (x.num, canonDict x)) fillers) = false) →
      ∀ fuel, Bs.length < fuel →
      finditerExpandedGo fuel
          (mkLogGo (Bs.map fun x => (x.num, canonDict x)) fillers)
        = Bs.map fun x => (x.num, canonGroups x) := by
  intro Bs
  induction Bs with
  | nil =>
    intro fillers _ _ hlen _ fuel hfuel
    have hfe : fillers = [] := List.length_eq_zero.mp (by simpa using hlen)
    subst hfe
    match fuel, hfuel with
    | fu + 1, _ => rfl
  | cons B bs ih =>
    intro fillers hOK hf hlen h9 fuel hfuel
    match fillers, hlen with
    | f :: fs, hlen =>
      match fuel, hfuel with
      | fu + 1, hfuel =>
        have hBOK := hOK B (by simp)
        have hstream : mkLogGo ((B :: bs).map fun x => (x.num, canonDict x))
              (f :: fs)
            = '\n' :: ("批次 ".toList ++ (natToDigits B.num
              ++ (" 评估结果:\n".toList
              ++ lineTail "accuracy" B.acc (lineTail "completeness" B.comp
                (lineTail "relevance" B.rel
                  (f ++ mkLogGo (bs.map fun x => (x.num, canonDict x)) fs)))))) := by
          simp [mkLogGo, blockText, canonDict, lineTail, renderList,
            List.append_assoc]
        have h9s0 : ∀ nm ∈ unusedFieldNames,
            hasSubstr (nm.toList ++ ": [".toList)
              (lineTail "accuracy" B.acc (lineTail "completeness" B.comp
                (lineTail "relevance" B.rel
                  (f ++ mkLogGo (bs.map fun x => (x.num, canonDict x)) fs))))
              = false := by
          intro nm hnm
          have hh := h9 nm hnm
          rw [show mkLogGo ((B :: bs).map fun x => (x.num, canonDict x))
                (f :: fs)
              = ('\n' :: ("批次 ".toList ++ (natToDigits B.num
                  ++ " 评估结果:\n".toList)))
                ++ lineTail "accuracy" B.acc (lineTail "completeness" B.comp
                  (lineTail "relevance" B.rel
                    (f ++ mkLogGo (bs.map fun x => (x.num, canonDict x)) fs)))
            from by
              simp [mkLogGo, blockText, canonDict, lineTail, renderList,
                List.append_assoc]] at hh
          exact hasSubstr_drop_prefix _ hh
        have h9tail : ∀ nm ∈ unusedFieldNames,
            hasSubstr (nm.toList ++ ": [".toList)
              (mkLogGo (bs.map fun x => (x.num, canonDict x)) fs) = false := by
          intro nm hnm
          have hh := h9 nm hnm
          rw [show mkLogGo ((B :: bs).map fun x => (x.num, canonDict x))
                (f :: fs)
              = (blockText B.num (canonDict B) ++ f)
                ++ mkLogGo (bs.map fun x => (x.num, canonDict x)) fs from by
            simp [mkLogGo, List.append_assoc]] at hh
          exact hasSubstr_drop_prefix _ hh
        rw [hstream, finditerExpandedGo]
        have hfm : findMarker ('\n' :: ("批次 ".toList ++ (natToDigits B.num
              ++ (" 评估结果:\n".toList
              ++ lineTail "accuracy" B.acc (lineTail "completeness" B.comp
                (lineTail "relevance" B.rel
                  (f ++ mkLogGo (bs.map fun x => (x.num, canonDict x)) fs)))))))
            = some (B.num,
                lineTail "accuracy" B.acc (lineTail "completeness" B.comp
                  (lineTail "relevance" B.rel
                    (f ++ mkLogGo (bs.map fun x => (x.num, canonDict x)) fs)))) := by
          rw [findMarker_newline]
          exact findMarker_header _ _
        simp only [hfm]
        have hmf : matchFieldsGo expandedFieldNames
              (lineTail "accuracy" B.acc (lineTail "completeness" B.comp
                (lineTail "relevance" B.rel
                  (f ++ mkLogGo (bs.map fun x => (x.num, canonDict x)) fs))))
            = (canonGroups B,
               '\n' :: (f ++ mkLogGo (bs.map fun x => (x.num, canonDict x)) fs)) :=
          matchFields_block hBOK.1 hBOK.2.1 hBOK.2.2.1 _ h9s0
        simp only [hmf, List.map_cons]
        have htail : findMarker
              ('\n' :: (f ++ mkLogGo (bs.map fun x => (x.num, canonDict x)) fs))
            = findMarker (mkLogGo (bs.map fun x => (x.num, canonDict x)) fs) := by
          rw [findMarker_newline]
          exact findMarker_skip f (hf f (by simp)) (mkLogGo_shape _ _)
        rw [finditerExpandedGo_congr htail fu]
        rw [ih fs (fun x hx => hOK x (by simp [hx]))
          (fun x hx => hf x (by simp [hx])) (by simpa using hlen) h9tail fu
          (by simp only [List.length_cons] at hfuel; omega)]

theorem expandedFields_canon {B : CanonBatch} (h : CanonOK B) :
    expandedFields (canonGroups B) = canonFieldDict B := by
  rw [show expandedFields (canonGroups B)
      = [("user_input", ([] : List Value)), ("retrieved_contexts", []),
         ("response", []), ("reference", []), ("context_precision", []),
         ("answer_relevancy", []), ("faithfulness", []),
         ("context_recall", []), ("context_entities_recall", []),
         ("accuracy", safeEvalStr (renderList B.acc)),
         ("completeness", safeEvalStr (renderList B.comp)),
         ("relevance", safeEvalStr (renderList B.rel))] from rfl]
  rw [safeEvalStr_renderList h.1, safeEvalStr_renderList h.2.1,
    safeEvalStr_renderList h.2.2.1]
  rfl

theorem remapFields_canon {B : CanonBatch} (h : CanonOK B) :
    remapFields (canonGroups B) (canonFieldDict B) = canonFieldDict B := by
  rw [remapFields, if_neg]
  rw [show fieldValues (canonFieldDict B) "accuracy"
      = B.acc.map scoreValue from rfl]
  simpa using h.2.2.2

theorem expandedRecords_canon : ∀ {Bs : List CanonBatch},
    (∀ B ∈ Bs, CanonOK B) →
    expandedRecords (Bs.map fun x => (x.num, canonGroups x))
      = canonRecords Bs := by
  intro Bs
  induction Bs with
  | nil => intro _; rfl
  | cons B bs ih =>
    intro h
    have hB := h B (by simp)
    simp only [expandedRecords, canonRecords, List.map_cons,
      List.flatMap_cons]
    rw [expandedFields_canon hB, remapFields_canon hB]
    have ih2 := ih (fun x hx => h x (by simp [hx]))
    simp only [expandedRecords, canonRecords] at ih2
    rw [ih2]

theorem canonRecords_ne {Bs : List CanonBatch} (hne : Bs ≠ [])
    (h : ∀ B ∈ Bs, CanonOK B) : canonRecords Bs ≠ [] := by
  match Bs, hne with
  | B :: bs, _ =>
    have hB := h B (by simp)
    intro hcontra
    rw [canonRecords, List.flatMap_cons] at hcontra
    rcases List.append_eq_nil.mp hcontra with ⟨h1, _⟩
    have hpos : 1 ≤ maxFieldLen (canonFieldDict B) := by
      have hl : 1 ≤ (B.acc.map scoreValue).length := by
        rcases hia : B.acc with _ | ⟨a, t⟩
        · exact absurd hia hB.2.2.2
        · simp
      simp only [maxFieldLen, canonFieldDict, List.map_cons, List.map_nil,
        List.foldr_cons, List.foldr_nil]
      omega
    rw [buildRecords] at h1
    have h2 := List.map_eq_nil_iff.mp h1
    rw [List.range_eq_nil] at h2
    omega

/-- C4 (amended): for every run written through the Report Writer's text log
format whose batch blocks carry the writer's standard metric lines
`accuracy, completeness, relevance` in that order with well-formed nonempty
score lists, whose surrounding writer lines never contain the marker
fragment `评估结果:`, and in which the expanded pattern's nine content/ragas
field tokens (`user_input: [` … `context_entities_recall: [`) never occur,
extraction recovers exactly one record per sample index per written batch,
carrying for each metric the written score's value at its `(batch, index)`
position and the missing marker for every field the log does not carry.
(The unamended claim over arbitrary block orderings is refuted by
`c4_metric_roundtrip_refuted`: the all-optional lazy DOTALL groups bind a
later batch's list when a block lists its metrics in a different order.) -/
theorem c4_metric_roundtrip (f0 : List Char) (Bs : List CanonBatch)
    (fillers : List (List Char)) (hne : Bs ≠ [])
    (hOK : ∀ B ∈ Bs, CanonOK B) (hlen : fillers.length = Bs.length)
    (hf0 : hasSubstr "评估结果:".toList f0 = false)
    (hf : ∀ f ∈ fillers, hasSubstr "评估结果:".toList f = false)
    (h9 : ∀ nm ∈ unusedFieldNames, hasSubstr (nm.toList ++ ": [".toList)
      (canonLog f0 Bs fillers) = false) :
    parse_evaluation_file (canonLog f0 Bs fillers) = canonRecords Bs := by
  have hstream9 : ∀ nm ∈ unusedFieldNames,
      hasSubstr (nm.toList ++ ": [".toList)
        (mkLogGo (Bs.map fun x => (x.num, canonDict x)) fillers) = false := by
    intro nm hnm
    have hh := h9 nm hnm
    rw [canonLog, mkLog] at hh
    exact hasSubstr_drop_prefix _ hh
  have hlenb : Bs.length < (canonLog f0 Bs fillers).length + 1 := by
    have h1 := mkLogGo_length (Bs.map fun x => (x.num, canonDict x)) fillers
    rw [canonLog, mkLog]
    simp only [List.length_append, List.length_map] at h1 ⊢
    omega
  have hcg : findMarker (canonLog f0 Bs fillers)
      = findMarker (mkLogGo (Bs.map fun x => (x.num, canonDict x)) fillers) := by
    rw [canonLog, mkLog]
    exact findMarker_skip f0 hf0 (mkLogGo_shape _ _)
  have hfe : finditerExpanded (canonLog f0 Bs fillers)
      = Bs.map fun x => (x.num, canonGroups x) := by
    rw [finditerExpanded, finditerExpandedGo_congr hcg]
    exact finditerExpandedGo_canon Bs fillers hOK hf hlen hstream9 _ hlenb
  have hmapne : (Bs.map fun x => (x.num, canonGroups x)) ≠ [] := by
    simpa using hne
  have hbr : (if (Bs.map fun x => (x.num, canonGroups x)) = [] then
        (if finditerBasic (canonLog f0 Bs fillers) = [] then
          tier3Records (canonLog f0 Bs fillers) else [])
      else expandedRecords (Bs.map fun x => (x.num, canonGroups x)))
      = canonRecords Bs := by
    rw [if_neg hmapne, expandedRecords_canon hOK]
  simp only [parse_evaluation_file, hfe, hbr]
  rw [if_neg (canonRecords_ne hne hOK)]

/-- C4 (amended, checked): the round trip on a concrete two-batch canonical
log, with the hypotheses discharged by evaluation. -/
theorem c4_metric_roundtrip_checked :
    parse_evaluation_file (canonLog c4AmF0 c4AmBs c4AmFills)
      = canonRecords c4AmBs :=
  c4_metric_roundtrip c4AmF0 c4AmBs c4AmFills (by decide) (by decide)
    (by decide) (by decide) (by decide) (by decide)

theorem c5_safe_eval_checked :
    safeEvalStr "[oops".toList = [] ∧
    safeEvalStr "[1.0, nan]".toList = [Value.vnum 1, Value.vnan] ∧
    safe_eval none = [] := by
  have h1 := (c5_safe_eval "[oops".toList).2.2.2.1 (by decide) (by decide)
  have h2 := (c5_safe_eval "[1.0, nan]".toList).2.1
    [Value.vnum 1, Value.vnan] (by decide) (by decide)
  exact ⟨h1, h2, rfl⟩

end RagEval
